import Mathlib

/-!
Verification of the arbitrary-precision two's-complement integer type
(`BigInt`) from `src/assignments/assignment09/bigint.rs`.

The carrier is a most-significant-word-first list of 32-bit unsigned words,
interpreted under two's-complement semantics.  Machine words `u32` are
embedded as `Nat` with explicit `% 2 ^ 32` wraparound; bitwise `!x` on `u32`
is `(2 ^ 32 - 1) - x`; `x & SIGN_MASK` is `x &&& SIGN_MASK` on `Nat`
(identical on values `< 2 ^ 32`).
-/

namespace BigIntSpec

/-- Number of values of a 32-bit word, `2 ^ 32`. -/
def W32 : Nat := 2 ^ 32

/-- Largest 32-bit word, `u32::MAX`. -/
def MAX32 : Nat := W32 - 1

/-- Mask of the sign bit of a word: `1 << 31` (source line 50). -/
def SIGN_MASK : Nat := 2 ^ 31

/-- The `BigInt` struct: a carrier vector of `u32` words, most significant
first (source lines 29-35). -/
structure BigInt where
  carrier : List Nat
deriving Repr, DecidableEq

/-- Well-formedness of a carrier as a list of `u32` values: every word is
below `2 ^ 32`.  This is implicit in the Rust type `Vec<u32>`. -/
def wf (l : List Nat) : Prop := ∀ w ∈ l, w < W32

instance wf_decidable (l : List Nat) : Decidable (wf l) := by
  unfold wf; infer_instance

/-- `BigInt::new` (source lines 39-41): a one-word carrier. -/
def new (n : Nat) : BigInt := ⟨[n]⟩

/-- `BigInt::new_large` (source lines 44-47), with its
`assert_false!(carrier.is_empty())` dropped; the assertion is modelled by
`new_largeChecked` below. -/
def new_large (carrier : List Nat) : BigInt := ⟨carrier⟩

/-- `BigInt::new_large` with the `assert_false!(carrier.is_empty())` of
source line 45 modelled as an `Option`: `none` stands for the panic. -/
def new_largeChecked (carrier : List Nat) : Option BigInt :=
  if carrier.isEmpty then none else some ⟨carrier⟩

/-- `BigInt::sign_extension` (source lines 54-63): prepend `len - n` copies
of the sign-fill word (`0` if the sign bit of the leading word is clear,
`u32::MAX` otherwise).  `List.headI` models `first().unwrap()` (the carrier
is never empty at the call sites), and `len - n` is the same truncated
subtraction; the panic of the Rust subtraction when `len < n` is modelled
by `sign_extensionChecked`. -/
def sign_extension (v : BigInt) (len : Nat) : BigInt :=
  let sign_extended :=
    if v.carrier.headI &&& SIGN_MASK = 0 then
      List.replicate (len - v.carrier.length) 0
    else
      List.replicate (len - v.carrier.length) MAX32
  ⟨sign_extended ++ v.carrier⟩

/-- `sign_extension` with the precondition `len ≥ carrier.len()` made
explicit: on `len < carrier.len()` the Rust computation
`len - self.carrier.len()` halts (overflow panic of `usize` subtraction);
this is modelled as `none`. -/
def sign_extensionChecked (v : BigInt) (len : Nat) : Option BigInt :=
  if len < v.carrier.length then none else some (sign_extension v len)

/-- Scanning loop of `truncate` (source lines 77-91): walks the words after
the leading sign word, at positions `i = 1, 2, ...`, keeping the last safe
index `index`; a word equal to `sign` advances `index` and continues, the
first differing word breaks, moving `index` up to it when its sign bit
agrees with `sign`. -/
def truncIndex (sign : Nat) : List Nat → Nat → Nat → Nat
  | [], _, index => index
  | w :: rest, i, index =>
    if w = sign then truncIndex sign rest (i + 1) i
    else if w &&& SIGN_MASK = sign &&& SIGN_MASK then i
    else index

/-- `BigInt::truncate` (source lines 72-97): keep carriers of length at most
one and carriers whose leading word is neither `0` nor `u32::MAX`; otherwise
drop the words before the index computed by the scan. -/
def truncate (v : BigInt) : BigInt :=
  if v.carrier.length ≤ 1 then ⟨v.carrier⟩
  else
    match v.carrier with
    | [] => ⟨v.carrier⟩
    | sign :: rest =>
      if sign ≠ 0 ∧ sign ≠ MAX32 then ⟨sign :: rest⟩
      else ⟨(sign :: rest).drop (truncIndex sign rest 1 0)⟩

/-- Word-wise loop of `Add::add` (source lines 108-123) over
least-significant-first word lists: `sum = a.wrapping_add(b).wrapping_add
(carry)` and the code's carry rule `if sum < a || sum < b { 1 } else { 0 }`.
Returns the pushed sums (least significant first) and the final carry. -/
def addWords : List Nat → List Nat → Nat → List Nat × Nat
  | a :: as, b :: bs, carry =>
    let sum := (a + b + carry) % W32
    let carry' := if sum < a ∨ sum < b then 1 else 0
    let r := addWords as bs carry'
    (sum :: r.1, r.2)
  | _, _, carry => ([], carry)

/-- `Add::add` for `BigInt` (source lines 103-130): sign-extend both
operands to `max(len(a), len(b)) + 1` words, run the word-wise loop over the
reversed (least-significant-first) carriers, pop the most significant
result word when the final carry is positive, reverse back and truncate. -/
def add (x y : BigInt) : BigInt :=
  let len := max x.carrier.length y.carrier.length
  let xe := sign_extension x (len + 1)
  let ye := sign_extension y (len + 1)
  let r := addWords xe.carrier.reverse ye.carrier.reverse 0
  let result := if 0 < r.2 then r.1.dropLast else r.1
  truncate (new_large result.reverse)

/-- `BigInt::two_complement` (source lines 65-69): bitwise-complement every
word (`!x` on `u32` is `MAX32 - x`) and add one. -/
def two_complement (v : BigInt) : BigInt :=
  let complement := v.carrier.map (fun x => MAX32 - x)
  add (new_large complement) (new 1)

/-- `Sub::sub` for `BigInt` (source lines 136-138). -/
def sub (x y : BigInt) : BigInt := add x (two_complement y)

/-- Unsigned base-`2 ^ 32` reading of a most-significant-first word list,
per the interpretation documented at source lines 10-16
(`[44, 345, 3]` reads as `44 * (2^32)^2 + 345 * 2^32 + 3`). -/
def toUnsigned : List Nat → Nat
  | [] => 0
  | w :: rest => w * W32 ^ rest.length + toUnsigned rest

/-- Represented two's-complement integer of a carrier (source lines 10-16):
the unsigned reading, minus `2 ^ (32 n)` when the sign bit of the leading
word is set. -/
def value (l : List Nat) : Int :=
  (toUnsigned l : Int) -
    (if l.headI &&& SIGN_MASK = 0 then 0 else (W32 : Int) ^ l.length)

/-- Unsigned reading of a least-significant-first word list. -/
def toUnsignedLsw : List Nat → Nat
  | [] => 0
  | w :: rest => w + W32 * toUnsignedLsw rest

/-- Word-wise addition as specified (spec section 4.4) over
least-significant-first lists: the sums are the same wraparound sums, but
the outgoing carry is `1` iff the unsigned 32-bit addition of the two words
plus the incoming carry overflowed, i.e. the raw sum is at least `2 ^ 32`. -/
def specWords : List Nat → List Nat → Nat → List Nat × Nat
  | a :: as, b :: bs, carry =>
    let sum := (a + b + carry) % W32
    let carry' := if W32 ≤ a + b + carry then 1 else 0
    let r := specWords as bs carry'
    (sum :: r.1, r.2)
  | _, _, carry => ([], carry)

/-- Addition as described by the specification's refinement sentence
(claim C3): sign-extend both operands to `max(len(a), len(b)) + 1` words,
take the word-wise modular sums with (true overflow) carry, assemble the
result words in original most-significant-first order — dropping no word —
and truncate. -/
def specAdd (x y : BigInt) : BigInt :=
  let len := max x.carrier.length y.carrier.length
  let xe := sign_extension x (len + 1)
  let ye := sign_extension y (len + 1)
  truncate ⟨(specWords xe.carrier.reverse ye.carrier.reverse 0).1.reverse⟩

/-- Word-wise addition with the code's carry rule, formulated directly over
most-significant-first lists: the recursive call processes the less
significant words and hands its carry out to the current word.  Returns the
sums (most significant first) and the carry out of the whole sequence. -/
def addMsw : List Nat → List Nat → List Nat × Nat
  | a :: as, b :: bs =>
    let r := addMsw as bs
    let sum := (a + b + r.2) % W32
    (sum :: r.1, if sum < a ∨ sum < b then 1 else 0)
  | _, _ => ([], 0)

/-- Staged description of `Add::add` (the amended form of claim C3):
sign-extend both operands to `max(len(a), len(b)) + 1` words, take the
word-wise wraparound sums with the code's carry rule, drop the most
significant assembled word when the final carry is `1`, and truncate. -/
def assembleAdd (x y : BigInt) : BigInt :=
  let len := max x.carrier.length y.carrier.length
  let xe := sign_extension x (len + 1)
  let ye := sign_extension y (len + 1)
  let r := addMsw xe.carrier ye.carrier
  truncate ⟨if 0 < r.2 then r.1.tail else r.1⟩

/-- The sign-fill word of a carrier: `0` for non-negative values, `u32::MAX`
for negative ones. -/
def fillWord (l : List Nat) : Nat :=
  if l.headI &&& SIGN_MASK = 0 then 0 else MAX32

/-- Absence of the carry-rule failure pattern along the (true) carry chain
of a word-wise addition over least-significant-first lists: no position
pairs two `u32::MAX` words with an incoming carry of `1`. -/
def noTrigger : List Nat → List Nat → Nat → Prop
  | a :: as, b :: bs, c =>
    ¬(a = MAX32 ∧ b = MAX32 ∧ c = 1) ∧
      noTrigger as bs (if W32 ≤ a + b + c then 1 else 0)
  | _, _, _ => True

/-- Structural reformulation of the `truncate` scan: given the current
candidate sign word and the words after it, either drop the sign word and
continue, stop before a word whose sign bit agrees with `sign`, or stop
keeping the sign word. -/
def truncGo (sign : Nat) : List Nat → List Nat
  | [] => [sign]
  | w :: rest =>
    if w = sign then truncGo sign rest
    else if w &&& SIGN_MASK = sign &&& SIGN_MASK then w :: rest
    else sign :: w :: rest

end BigIntSpec

namespace BigIntSpec

/-! ### Numeric and bit-level helpers -/

theorem W32_pos : 0 < W32 := by norm_num [W32]

theorem MAX32_lt_W32 : MAX32 < W32 := by norm_num [MAX32, W32]

theorem and_sign_mask_cases (s : Nat) :
    s &&& SIGN_MASK = 0 ∨ s &&& SIGN_MASK = SIGN_MASK := by
  have h := Nat.and_two_pow s 31
  rcases Bool.eq_false_or_eq_true (s.testBit 31) with hb | hb
  · right; rw [SIGN_MASK, h, hb]; simp
  · left; rw [SIGN_MASK, h, hb]; simp

theorem and_sign_mask_eq_zero_iff (s : Nat) (h : s < W32) :
    s &&& SIGN_MASK = 0 ↔ s < SIGN_MASK := by
  have h2 := Nat.and_two_pow s 31
  have ht : s.testBit 31 = decide (s / 2 ^ 31 % 2 = 1) := Nat.testBit_to_div_mod
  have hW : W32 = 4294967296 := by norm_num [W32]
  have h31 : (2 : Nat) ^ 31 = 2147483648 := by norm_num
  rw [SIGN_MASK, h2, ht, h31]
  rw [hW] at h
  rcases Nat.lt_or_ge s 2147483648 with hs | hs
  · have hd : s / 2147483648 = 0 := Nat.div_eq_of_lt hs
    simp [hd, hs]
  · have hd : s / 2147483648 = 1 := by omega
    simp [hd]
    omega

theorem MAX32_and_sign_mask : MAX32 &&& SIGN_MASK = SIGN_MASK := by decide

theorem zero_and_sign_mask : (0 : Nat) &&& SIGN_MASK = 0 := by decide

/-! ### Unsigned readings -/

@[simp] theorem toUnsigned_nil : toUnsigned [] = 0 := rfl

theorem toUnsigned_cons (w : Nat) (l : List Nat) :
    toUnsigned (w :: l) = w * W32 ^ l.length + toUnsigned l := rfl

@[simp] theorem toUnsignedLsw_nil : toUnsignedLsw [] = 0 := rfl

theorem toUnsignedLsw_cons (w : Nat) (l : List Nat) :
    toUnsignedLsw (w :: l) = w + W32 * toUnsignedLsw l := rfl

theorem toUnsignedLsw_append (l₁ l₂ : List Nat) :
    toUnsignedLsw (l₁ ++ l₂) =
      toUnsignedLsw l₁ + W32 ^ l₁.length * toUnsignedLsw l₂ := by
  induction l₁ with
  | nil => simp
  | cons w t ih =>
    simp only [List.cons_append, toUnsignedLsw_cons, ih, List.length_cons]
    ring

theorem toUnsigned_eq_lsw_reverse (l : List Nat) :
    toUnsigned l = toUnsignedLsw l.reverse := by
  induction l with
  | nil => rfl
  | cons w t ih =>
    rw [toUnsigned_cons, List.reverse_cons, toUnsignedLsw_append, ih]
    simp [toUnsignedLsw_cons]
    ring

theorem toUnsigned_lt (l : List Nat) (h : wf l) : toUnsigned l < W32 ^ l.length := by
  induction l with
  | nil => simp [W32_pos]
  | cons w t ih =>
    have hw : w < W32 := h w (List.mem_cons_self w t)
    have ht : toUnsigned t < W32 ^ t.length := ih fun x hx => h x (List.mem_cons_of_mem w hx)
    rw [toUnsigned_cons]
    calc w * W32 ^ t.length + toUnsigned t
        < w * W32 ^ t.length + W32 ^ t.length := by omega
      _ = (w + 1) * W32 ^ t.length := by ring
      _ ≤ W32 * W32 ^ t.length := by
          exact Nat.mul_le_mul_right _ (by omega)
      _ = W32 ^ (t.length + 1) := by ring
      _ = W32 ^ (w :: t).length := by simp

theorem toUnsignedLsw_lt (l : List Nat) (h : wf l) :
    toUnsignedLsw l < W32 ^ l.length := by
  induction l with
  | nil => simp [W32_pos]
  | cons w t ih =>
    have hw : w < W32 := h w (List.mem_cons_self w t)
    have ht : toUnsignedLsw t < W32 ^ t.length := ih fun x hx => h x (List.mem_cons_of_mem w hx)
    rw [toUnsignedLsw_cons]
    calc w + W32 * toUnsignedLsw t
        < W32 + W32 * toUnsignedLsw t := by omega
      _ = W32 * (toUnsignedLsw t + 1) := by ring
      _ ≤ W32 * W32 ^ t.length := Nat.mul_le_mul_left _ (by omega)
      _ = W32 ^ (w :: t).length := by simp [pow_succ]; ring

theorem toUnsignedLsw_eq_zero (l : List Nat) (h : toUnsignedLsw l = 0) :
    ∀ w ∈ l, w = 0 := by
  induction l with
  | nil => simp
  | cons w t ih =>
    rw [toUnsignedLsw_cons] at h
    have hw : w = 0 := by omega
    have ht : toUnsignedLsw t = 0 := by
      have := W32_pos
      rcases Nat.eq_zero_or_pos (toUnsignedLsw t) with h0 | h0
      · exact h0
      · exfalso; have : 0 < W32 * toUnsignedLsw t := Nat.mul_pos W32_pos h0; omega
    intro x hx
    rcases List.mem_cons.mp hx with rfl | hx
    · exact hw
    · exact ih ht x hx

end BigIntSpec

namespace BigIntSpec

/-! ### Represented value: basic characterizations -/

theorem value_of_head_zero (l : List Nat) (h : l.headI &&& SIGN_MASK = 0) :
    value l = (toUnsigned l : Int) := by
  simp [value, h]

theorem value_of_head_sign (l : List Nat) (h : ¬ l.headI &&& SIGN_MASK = 0) :
    value l = (toUnsigned l : Int) - (W32 : Int) ^ l.length := by
  simp [value, h]

theorem toUnsigned_head_lt (w : Nat) (l : List Nat) (hwf : wf (w :: l))
    (h : w < SIGN_MASK) :
    toUnsigned (w :: l) < SIGN_MASK * W32 ^ l.length := by
  have ht : toUnsigned l < W32 ^ l.length :=
    toUnsigned_lt l fun x hx => hwf x (List.mem_cons_of_mem w hx)
  rw [toUnsigned_cons]
  calc w * W32 ^ l.length + toUnsigned l
      < w * W32 ^ l.length + W32 ^ l.length := by omega
    _ = (w + 1) * W32 ^ l.length := by ring
    _ ≤ SIGN_MASK * W32 ^ l.length := Nat.mul_le_mul_right _ (by omega)

theorem toUnsigned_head_ge (w : Nat) (l : List Nat) (h : SIGN_MASK ≤ w) :
    SIGN_MASK * W32 ^ l.length ≤ toUnsigned (w :: l) := by
  rw [toUnsigned_cons]
  have : SIGN_MASK * W32 ^ l.length ≤ w * W32 ^ l.length :=
    Nat.mul_le_mul_right _ h
  omega

theorem sign_mask_double : SIGN_MASK * 2 = W32 := by norm_num [SIGN_MASK, W32]

/-- Two's-complement value of a non-empty well-formed carrier lies in the
symmetric interval `[-2^(32 n - 1), 2^(32 n - 1))`. -/
theorem value_bounds (w : Nat) (l : List Nat) (hwf : wf (w :: l)) :
    -((SIGN_MASK : Int) * (W32 : Int) ^ l.length) ≤ value (w :: l) ∧
      value (w :: l) < (SIGN_MASK : Int) * (W32 : Int) ^ l.length := by
  have hw : w < W32 := hwf w (List.mem_cons_self w l)
  have hU : toUnsigned (w :: l) < W32 ^ (w :: l).length := toUnsigned_lt _ hwf
  rcases and_sign_mask_cases w with h0 | h1
  · have hlt : w < SIGN_MASK := (and_sign_mask_eq_zero_iff w hw).mp h0
    have hUlt := toUnsigned_head_lt w l hwf hlt
    have hv : value (w :: l) = (toUnsigned (w :: l) : Int) :=
      value_of_head_zero _ (by simpa using h0)
    rw [hv]
    constructor
    · have h0 : (0 : Int) ≤ (toUnsigned (w :: l) : Int) := Int.ofNat_nonneg _
      have hS : (0 : Int) < (SIGN_MASK : Int) := by norm_num [SIGN_MASK]
      have hWp : (0 : Int) < (W32 : Int) ^ l.length := by
        apply pow_pos; norm_num [W32]
      have hp := mul_pos hS hWp
      linarith
    · exact_mod_cast hUlt
  · have hge : SIGN_MASK ≤ w := by
      by_contra hc
      push_neg at hc
      have := (and_sign_mask_eq_zero_iff w hw).mpr hc
      rw [this] at h1
      have := SIGN_MASK
      simp [SIGN_MASK] at h1
    have hUge := toUnsigned_head_ge w l hge
    have hne : ¬ (w :: l).headI &&& SIGN_MASK = 0 := by
      simp only [List.headI]
      rw [h1]; norm_num [SIGN_MASK]
    have hv := value_of_head_sign (w :: l) hne
    rw [hv]
    have hlen : (w :: l).length = l.length + 1 := by simp
    have hWpow : (W32 : Int) ^ (w :: l).length =
        (SIGN_MASK : Int) * (W32 : Int) ^ l.length * 2 := by
      have h2 : (SIGN_MASK : Int) * 2 = (W32 : Int) := by
        exact_mod_cast sign_mask_double
      rw [hlen, pow_succ, ← h2]
      ring
    constructor
    · rw [hWpow]
      have : (SIGN_MASK : Int) * (W32 : Int) ^ l.length ≤ (toUnsigned (w :: l) : Int) := by
        exact_mod_cast hUge
      linarith
    · have : (toUnsigned (w :: l) : Int) < (W32 : Int) ^ (w :: l).length := by
        exact_mod_cast hU
      linarith [this, hWpow]

/-- If two integers in the interval `[-H, H)` differ by a multiple of
`2 * H`, they are equal. -/
theorem int_eq_of_interval (a b H : Int) (hdvd : 2 * H ∣ a - b)
    (ha1 : -H ≤ a) (ha2 : a < H) (hb1 : -H ≤ b) (hb2 : b < H) : a = b := by
  have h0 : a - b = 0 := by
    apply Int.eq_zero_of_abs_lt_dvd hdvd
    rw [abs_lt]
    omega
  omega

end BigIntSpec

namespace BigIntSpec

/-! ### Prepending a sign-fill word preserves the value -/

theorem W32_int_pos (n : Nat) : (0 : Int) < (W32 : Int) ^ n := by
  apply pow_pos; norm_num [W32]

theorem value_fill_cons (l : List Nat) : value (fillWord l :: l) = value l := by
  rcases and_sign_mask_cases l.headI with h0 | h1
  · have hf : fillWord l = 0 := by simp [fillWord, h0]
    rw [hf]
    have hh : (((0 : Nat) :: l).headI &&& SIGN_MASK) = 0 := by
      simp [List.headI, zero_and_sign_mask]
    rw [value_of_head_zero _ hh, value_of_head_zero _ h0, toUnsigned_cons]
    simp
  · have hSM : SIGN_MASK ≠ 0 := by norm_num [SIGN_MASK]
    have hne : ¬ l.headI &&& SIGN_MASK = 0 := by rw [h1]; exact hSM
    have hf : fillWord l = MAX32 := by simp [fillWord, hne]
    rw [hf]
    have hh : ¬ ((MAX32 :: l).headI &&& SIGN_MASK) = 0 := by
      simp [List.headI, MAX32_and_sign_mask]; exact hSM
    rw [value_of_head_sign _ hh, value_of_head_sign _ hne, toUnsigned_cons]
    have hM : (MAX32 : Int) = (W32 : Int) - 1 := by
      have : (1 : Nat) ≤ W32 := by norm_num [W32]
      simp [MAX32]
      omega
    push_cast
    rw [hM]
    have hlen : (l.length + 1 : Nat) = l.length + 1 := rfl
    rw [List.length_cons, pow_succ]
    ring

theorem value_cons_eq_iff (s : Nat) (l : List Nat) (hs : s < W32) :
    value (s :: l) = value l ↔ s = fillWord l := by
  have hP := W32_int_pos l.length
  have hPne : ((W32 : Int) ^ l.length) ≠ 0 := ne_of_gt hP
  constructor
  · intro h
    have hexp : value (s :: l) =
        (s : Int) * (W32 : Int) ^ l.length + (toUnsigned l : Int) -
          (if s &&& SIGN_MASK = 0 then 0 else (W32 : Int) ^ (l.length + 1)) := by
      by_cases h0 : s &&& SIGN_MASK = 0
      · rw [value_of_head_zero _ (by simpa [List.headI] using h0), toUnsigned_cons,
          if_pos h0]
        push_cast
        ring
      · rw [value_of_head_sign _ (by simpa [List.headI] using h0), toUnsigned_cons,
          if_neg h0, List.length_cons]
        push_cast
        ring
    rcases and_sign_mask_cases s with h0 | h1
    · rw [hexp, if_pos h0] at h
      rcases and_sign_mask_cases l.headI with g0 | g1
      · rw [value_of_head_zero _ g0] at h
        have hs0 : (s : Int) * (W32 : Int) ^ l.length = 0 := by linarith
        have hsz : (s : Int) = 0 := by
          rcases mul_eq_zero.mp hs0 with h' | h'
          · exact h'
          · exact absurd h' hPne
        have hz : s = 0 := by exact_mod_cast hsz
        simp [fillWord, g0, hz]
      · exfalso
        have hg : ¬ l.headI &&& SIGN_MASK = 0 := by
          rw [g1]; norm_num [SIGN_MASK]
        rw [value_of_head_sign _ hg] at h
        have hkey : ((s : Int) + 1) * (W32 : Int) ^ l.length = 0 := by
          linear_combination h
        rcases mul_eq_zero.mp hkey with h' | h'
        · have : (0 : Int) ≤ (s : Int) := Int.ofNat_nonneg s
          omega
        · exact absurd h' hPne
    · have hne : ¬ s &&& SIGN_MASK = 0 := by rw [h1]; norm_num [SIGN_MASK]
      rw [hexp, if_neg hne, pow_succ] at h
      rcases and_sign_mask_cases l.headI with g0 | g1
      · exfalso
        rw [value_of_head_zero _ g0] at h
        have hkey : ((s : Int) - (W32 : Int)) * (W32 : Int) ^ l.length = 0 := by
          linear_combination h
        rcases mul_eq_zero.mp hkey with h' | h'
        · have hlt : (s : Int) < (W32 : Int) := by exact_mod_cast hs
          omega
        · exact absurd h' hPne
      · have hg : ¬ l.headI &&& SIGN_MASK = 0 := by
          rw [g1]; norm_num [SIGN_MASK]
        rw [value_of_head_sign _ hg] at h
        have hkey : ((s : Int) + 1 - (W32 : Int)) * (W32 : Int) ^ l.length = 0 := by
          linear_combination h
        have hsval : (s : Int) + 1 - (W32 : Int) = 0 := by
          rcases mul_eq_zero.mp hkey with h' | h'
          · exact h'
          · exact absurd h' hPne
        have hW1 : (1 : Nat) ≤ W32 := by norm_num [W32]
        have hsN : s = W32 - 1 := by omega
        rw [hsN]
        simp [fillWord, hg, MAX32]
  · intro h
    rw [h]
    exact value_fill_cons l

end BigIntSpec

namespace BigIntSpec

/-! ### Sign extension -/

theorem sign_extension_carrier (v : BigInt) (len : Nat) :
    (sign_extension v len).carrier =
      List.replicate (len - v.carrier.length) (fillWord v.carrier) ++ v.carrier := by
  unfold sign_extension fillWord
  by_cases h : v.carrier.headI &&& SIGN_MASK = 0 <;> simp [h]

theorem length_sign_extension (v : BigInt) (len : Nat)
    (h : v.carrier.length ≤ len) :
    (sign_extension v len).carrier.length = len := by
  rw [sign_extension_carrier]
  simp
  omega

theorem fillWord_lt (l : List Nat) : fillWord l < W32 := by
  unfold fillWord
  split
  · norm_num [W32]
  · exact MAX32_lt_W32

theorem wf_sign_extension (v : BigInt) (len : Nat) (h : wf v.carrier) :
    wf (sign_extension v len).carrier := by
  rw [sign_extension_carrier]
  intro w hw
  rcases List.mem_append.mp hw with hw | hw
  · have := List.eq_of_mem_replicate hw
    rw [this]
    exact fillWord_lt v.carrier
  · exact h w hw

theorem headI_replicate_append (k f : Nat) (l : List Nat) :
    (List.replicate k f ++ l).headI = if k = 0 then l.headI else f := by
  cases k with
  | zero => simp
  | succ m => simp [List.replicate_succ]

theorem fillWord_and_sign_mask (l : List Nat) :
    fillWord l &&& SIGN_MASK = l.headI &&& SIGN_MASK := by
  unfold fillWord
  by_cases h : l.headI &&& SIGN_MASK = 0
  · rw [if_pos h, h, zero_and_sign_mask]
  · rw [if_neg h, MAX32_and_sign_mask]
    rcases and_sign_mask_cases l.headI with h0 | h1
    · exact absurd h0 h
    · exact h1.symm

theorem fillWord_congr (l1 l2 : List Nat)
    (h : l1.headI &&& SIGN_MASK = l2.headI &&& SIGN_MASK) :
    fillWord l1 = fillWord l2 := by
  unfold fillWord
  rw [h]

theorem value_replicate_fill (k : Nat) (l : List Nat) :
    value (List.replicate k (fillWord l) ++ l) = value l := by
  induction k with
  | zero => simp
  | succ m ih =>
    have hstep : List.replicate (m + 1) (fillWord l) ++ l =
        fillWord l :: (List.replicate m (fillWord l) ++ l) := by
      simp [List.replicate_succ]
    rw [hstep]
    have hfill : fillWord (List.replicate m (fillWord l) ++ l) = fillWord l := by
      apply fillWord_congr
      rw [headI_replicate_append]
      split
      · rfl
      · exact fillWord_and_sign_mask l
    calc value (fillWord l :: (List.replicate m (fillWord l) ++ l))
        = value (fillWord (List.replicate m (fillWord l) ++ l) ::
            (List.replicate m (fillWord l) ++ l)) := by rw [hfill]
      _ = value (List.replicate m (fillWord l) ++ l) := value_fill_cons _
      _ = value l := ih

theorem value_sign_extension (v : BigInt) (len : Nat) :
    value (sign_extension v len).carrier = value v.carrier := by
  rw [sign_extension_carrier]
  exact value_replicate_fill _ _

theorem headI_and_sign_extension (v : BigInt) (len : Nat) :
    (sign_extension v len).carrier.headI &&& SIGN_MASK =
      v.carrier.headI &&& SIGN_MASK := by
  rw [sign_extension_carrier, headI_replicate_append]
  split
  · rfl
  · exact fillWord_and_sign_mask v.carrier

end BigIntSpec

namespace BigIntSpec

/-! ### Truncation: bridge from the index-based scan to `truncGo` -/

theorem truncIndex_drop (sign : Nat) (l : List Nat) : ∀ k : Nat,
    (List.replicate k sign ++ sign :: l).drop (truncIndex sign l (k + 1) k) =
      truncGo sign l := by
  induction l with
  | nil =>
    intro k
    simp only [truncIndex, truncGo]
    have : List.replicate k sign ++ [sign] = List.replicate k sign ++ [sign] := rfl
    rw [show sign :: ([] : List Nat) = [sign] from rfl]
    have hd := List.drop_left (List.replicate k sign) [sign]
    rwa [List.length_replicate] at hd
  | cons w rest ih =>
    intro k
    by_cases hw : w = sign
    · subst hw
      have hlist : List.replicate k w ++ w :: w :: rest =
          List.replicate (k + 1) w ++ w :: rest := by
        rw [List.replicate_succ']
        simp
      rw [show truncIndex w (w :: rest) (k + 1) k =
            truncIndex w rest (k + 2) (k + 1) by simp [truncIndex]]
      rw [hlist]
      rw [show truncGo w (w :: rest) = truncGo w rest by simp [truncGo]]
      exact ih (k + 1)
    · by_cases hm : w &&& SIGN_MASK = sign &&& SIGN_MASK
      · rw [show truncIndex sign (w :: rest) (k + 1) k = k + 1 by
          simp [truncIndex, hw, hm]]
        rw [show truncGo sign (w :: rest) = w :: rest by
          simp [truncGo, hw, hm]]
        have hlist : List.replicate k sign ++ sign :: w :: rest =
            List.replicate (k + 1) sign ++ w :: rest := by
          rw [List.replicate_succ']
          simp
        rw [hlist]
        have hd := List.drop_left (List.replicate (k + 1) sign) (w :: rest)
        rwa [List.length_replicate] at hd
      · rw [show truncIndex sign (w :: rest) (k + 1) k = k by
          simp [truncIndex, hw, hm]]
        rw [show truncGo sign (w :: rest) = sign :: w :: rest by
          simp [truncGo, hw, hm]]
        have hd := List.drop_left (List.replicate k sign) (sign :: w :: rest)
        rwa [List.length_replicate] at hd

theorem truncate_mk (v : BigInt) : truncate ⟨v.carrier⟩ = truncate v := by
  obtain ⟨c⟩ := v
  rfl

/-- Case analysis of `truncate` on a carrier: either it returns the carrier
unchanged (short carrier or a leading word that is not a sign-fill word), or
the carrier starts with `0` or `u32::MAX`, has at least two words, and the
result is computed by the structural scan `truncGo`. -/
theorem truncate_cases (c : List Nat) :
    ((truncate ⟨c⟩).carrier = c ∧
      (c.length ≤ 1 ∨ ∃ s t, c = s :: t ∧ ¬(s = 0 ∨ s = MAX32))) ∨
    (∃ sign rest, c = sign :: rest ∧ (sign = 0 ∨ sign = MAX32) ∧
      2 ≤ c.length ∧ (truncate ⟨c⟩).carrier = truncGo sign rest) := by
  by_cases hlen : c.length ≤ 1
  · left
    constructor
    · simp [truncate, hlen]
    · left; exact hlen
  · match c with
    | [] => simp at hlen
    | sign :: rest =>
      by_cases hs : sign ≠ 0 ∧ sign ≠ MAX32
      · left
        constructor
        · simp only [truncate, if_neg hlen]
          simp [hs]
        · right
          exact ⟨sign, rest, rfl, by tauto⟩
      · right
        refine ⟨sign, rest, rfl, by tauto, by omega, ?_⟩
        have hdrop := truncIndex_drop sign rest 0
        simp only [List.replicate_zero, List.nil_append] at hdrop
        simp only [truncate, if_neg hlen]
        simp only [if_neg hs]
        exact hdrop

/-! ### Structural facts about `truncGo` -/

theorem truncGo_ne_nil (sign : Nat) (l : List Nat) : truncGo sign l ≠ [] := by
  induction l with
  | nil => simp [truncGo]
  | cons w rest ih =>
    unfold truncGo
    split
    · exact ih
    · split <;> simp

theorem truncGo_mem (sign : Nat) (l : List Nat) :
    ∀ w ∈ truncGo sign l, w ∈ sign :: l := by
  induction l with
  | nil => simp [truncGo]
  | cons w rest ih =>
    unfold truncGo
    intro x hx
    split at hx
    · rename_i hw
      have := ih x hx
      rcases List.mem_cons.mp this with h | h
      · exact List.mem_cons.mpr (Or.inl h)
      · exact List.mem_cons.mpr (Or.inr (List.mem_cons.mpr (Or.inr h)))
    · split at hx
      · exact List.mem_cons.mpr (Or.inr hx)
      · exact hx

theorem truncGo_shape (sign : Nat) (l : List Nat) :
    truncGo sign l = [sign] ∨
    (∃ w t, truncGo sign l = w :: t ∧ w ≠ sign ∧
      w &&& SIGN_MASK = sign &&& SIGN_MASK) ∨
    (∃ w t, truncGo sign l = sign :: w :: t ∧ w ≠ sign ∧
      ¬ w &&& SIGN_MASK = sign &&& SIGN_MASK) := by
  induction l with
  | nil => left; rfl
  | cons w rest ih =>
    unfold truncGo
    by_cases hw : w = sign
    · simp only [if_pos hw]
      exact ih
    · by_cases hm : w &&& SIGN_MASK = sign &&& SIGN_MASK
      · right; left
        exact ⟨w, rest, by simp [hw, hm], hw, hm⟩
      · right; right
        exact ⟨w, rest, by simp [hw, hm], hw, hm⟩

theorem fillWord_of_sign (sign : Nat) (t : List Nat)
    (hs : sign = 0 ∨ sign = MAX32) : fillWord (sign :: t) = sign := by
  unfold fillWord
  rcases hs with rfl | rfl
  · have h : ((0 : Nat) :: t).headI &&& SIGN_MASK = 0 := by
      simp only [List.headI]
      exact zero_and_sign_mask
    rw [if_pos h]
  · have h : ¬ (MAX32 :: t).headI &&& SIGN_MASK = 0 := by
      simp only [List.headI]
      rw [MAX32_and_sign_mask]
      norm_num [SIGN_MASK]
    rw [if_neg h]

theorem truncGo_value (sign : Nat) (l : List Nat)
    (hs : sign = 0 ∨ sign = MAX32) :
    value (truncGo sign l) = value (sign :: l) := by
  induction l with
  | nil => rfl
  | cons w rest ih =>
    by_cases hw : w = sign
    · subst hw
      rw [show truncGo w (w :: rest) = truncGo w rest by simp [truncGo]]
      rw [ih]
      have hfill := fillWord_of_sign w rest hs
      calc value (w :: rest) = value (fillWord (w :: rest) :: w :: rest) :=
              (value_fill_cons (w :: rest)).symm
        _ = value (w :: w :: rest) := by rw [hfill]
    · by_cases hm : w &&& SIGN_MASK = sign &&& SIGN_MASK
      · rw [show truncGo sign (w :: rest) = w :: rest by simp [truncGo, hw, hm]]
        have hfill : fillWord (w :: rest) = sign := by
          unfold fillWord
          rcases hs with rfl | rfl
          · rw [zero_and_sign_mask] at hm
            have h : (w :: rest).headI &&& SIGN_MASK = 0 := by
              simp only [List.headI]
              exact hm
            rw [if_pos h]
          · rw [MAX32_and_sign_mask] at hm
            have h : ¬ (w :: rest).headI &&& SIGN_MASK = 0 := by
              simp only [List.headI]
              rw [hm]
              norm_num [SIGN_MASK]
            rw [if_neg h]
        calc value (w :: rest) = value (fillWord (w :: rest) :: w :: rest) :=
                (value_fill_cons (w :: rest)).symm
          _ = value (sign :: w :: rest) := by rw [hfill]
      · rw [show truncGo sign (w :: rest) = sign :: w :: rest by
          simp [truncGo, hw, hm]]

end BigIntSpec

namespace BigIntSpec

/-! ### Consequences for `truncate` -/

theorem sign_ne_fill_facts (sign w : Nat) (hsign : sign = 0 ∨ sign = MAX32)
    (hw : w ≠ sign) (hm : w &&& SIGN_MASK = sign &&& SIGN_MASK) :
    w ≠ 0 ∧ w ≠ MAX32 := by
  rcases hsign with rfl | rfl
  · rw [zero_and_sign_mask] at hm
    constructor
    · exact hw
    · intro hcon
      rw [hcon, MAX32_and_sign_mask] at hm
      have : SIGN_MASK ≠ 0 := by norm_num [SIGN_MASK]
      exact this hm
  · rw [MAX32_and_sign_mask] at hm
    constructor
    · intro hcon
      rw [hcon, zero_and_sign_mask] at hm
      have : SIGN_MASK ≠ 0 := by norm_num [SIGN_MASK]
      exact this hm.symm
    · exact hw

/-- The output of the truncation scan is a fixed point of `truncate`. -/
theorem truncGo_fixed (sign : Nat) (l : List Nat)
    (hs : sign = 0 ∨ sign = MAX32) :
    (truncate ⟨truncGo sign l⟩).carrier = truncGo sign l := by
  rcases truncGo_shape sign l with h1 | h2 | h3
  · rw [h1]
    simp [truncate]
  · obtain ⟨w, t, heq, hw, hm⟩ := h2
    rw [heq]
    match t with
    | [] => simp [truncate]
    | u :: t' =>
      have hfacts := sign_ne_fill_facts sign w hs hw hm
      have hlen : ¬ (w :: u :: t').length ≤ 1 := by simp
      simp only [truncate, if_neg hlen]
      simp [hfacts.1, hfacts.2]
  · obtain ⟨w, t, heq, hw, hm⟩ := h3
    rw [heq]
    have hlen : ¬ (sign :: w :: t).length ≤ 1 := by simp
    simp only [truncate, if_neg hlen]
    have hsig : ¬ (sign ≠ 0 ∧ sign ≠ MAX32) := by tauto
    simp only [if_neg hsig]
    rw [show truncIndex sign (w :: t) 1 0 = 0 by simp [truncIndex, hw, hm]]
    rfl

theorem truncate_ne_nil (c : List Nat) (h : c ≠ []) :
    (truncate ⟨c⟩).carrier ≠ [] := by
  rcases truncate_cases c with ⟨hid, _⟩ | ⟨sign, rest, hc, hs, hlen2, hgo⟩
  · rw [hid]; exact h
  · rw [hgo]; exact truncGo_ne_nil sign rest

theorem wf_truncate (c : List Nat) (h : wf c) : wf (truncate ⟨c⟩).carrier := by
  rcases truncate_cases c with ⟨hid, _⟩ | ⟨sign, rest, hc, hs, hlen2, hgo⟩
  · rw [hid]; exact h
  · rw [hgo]
    intro w hw
    have := truncGo_mem sign rest w hw
    rw [← hc] at this
    exact h w this

theorem value_truncate (c : List Nat) :
    value (truncate ⟨c⟩).carrier = value c := by
  rcases truncate_cases c with ⟨hid, _⟩ | ⟨sign, rest, hc, hs, hlen2, hgo⟩
  · rw [hid]
  · rw [hgo, truncGo_value sign rest hs, hc]

end BigIntSpec

namespace BigIntSpec

/-! ### The word-wise addition loops -/

theorem specWords_length (x : List Nat) : ∀ (y : List Nat) (c : Nat),
    (specWords x y c).1.length = min x.length y.length := by
  induction x with
  | nil => intro y c; cases y <;> simp [specWords]
  | cons a as ih =>
    intro y c
    cases y with
    | nil => simp [specWords]
    | cons b bs =>
      have h : specWords (a :: as) (b :: bs) c =
          ((a + b + c) % W32 ::
            (specWords as bs (if W32 ≤ a + b + c then 1 else 0)).1,
           (specWords as bs (if W32 ≤ a + b + c then 1 else 0)).2) := rfl
      rw [h]
      simp [ih]
      omega

theorem addWords_length (x : List Nat) : ∀ (y : List Nat) (c : Nat),
    (addWords x y c).1.length = min x.length y.length := by
  induction x with
  | nil => intro y c; cases y <;> simp [addWords]
  | cons a as ih =>
    intro y c
    cases y with
    | nil => simp [addWords]
    | cons b bs =>
      have h : addWords (a :: as) (b :: bs) c =
          ((a + b + c) % W32 ::
            (addWords as bs
              (if (a + b + c) % W32 < a ∨ (a + b + c) % W32 < b then 1 else 0)).1,
           (addWords as bs
              (if (a + b + c) % W32 < a ∨ (a + b + c) % W32 < b then 1 else 0)).2) := rfl
      rw [h]
      simp [ih]
      omega

theorem addWords_wf (x : List Nat) : ∀ (y : List Nat) (c : Nat),
    wf (addWords x y c).1 := by
  induction x with
  | nil => intro y c; cases y <;> simp [addWords, wf]
  | cons a as ih =>
    intro y c
    cases y with
    | nil => simp [addWords, wf]
    | cons b bs =>
      have h : addWords (a :: as) (b :: bs) c =
          ((a + b + c) % W32 ::
            (addWords as bs
              (if (a + b + c) % W32 < a ∨ (a + b + c) % W32 < b then 1 else 0)).1,
           (addWords as bs
              (if (a + b + c) % W32 < a ∨ (a + b + c) % W32 < b then 1 else 0)).2) := rfl
      rw [h]
      intro w hw
      rcases List.mem_cons.mp hw with rfl | hw
      · exact Nat.mod_lt _ W32_pos
      · exact ih bs _ w hw

theorem wrap_step (t : Nat) (h2 : t < 2 * W32) :
    W32 * (if W32 ≤ t then 1 else 0) + t % W32 = t := by
  have hW : W32 = 4294967296 := by norm_num [W32]
  rw [hW] at h2 ⊢
  split <;> omega

theorem specWords_correct (x : List Nat) : ∀ (y : List Nat) (c : Nat),
    x.length = y.length → wf x → wf y → c ≤ 1 →
    (specWords x y c).2 ≤ 1 ∧
      W32 ^ x.length * (specWords x y c).2 + toUnsignedLsw (specWords x y c).1 =
        toUnsignedLsw x + toUnsignedLsw y + c := by
  induction x with
  | nil =>
    intro y c hlen _ _ hc
    have hy : y = [] := List.eq_nil_of_length_eq_zero hlen.symm
    subst hy
    simpa [specWords, toUnsignedLsw] using hc
  | cons a as ih =>
    intro y c hlen hwx hwy hc
    cases y with
    | nil => simp at hlen
    | cons b bs =>
      have hlen' : as.length = bs.length := by simpa using hlen
      have ha := hwx a (List.mem_cons_self _ _)
      have hb := hwy b (List.mem_cons_self _ _)
      have hwas : wf as := fun w hw => hwx w (List.mem_cons_of_mem _ hw)
      have hwbs : wf bs := fun w hw => hwy w (List.mem_cons_of_mem _ hw)
      have hc1 : (if W32 ≤ a + b + c then 1 else 0) ≤ 1 := by split <;> omega
      obtain ⟨hC, hIH⟩ := ih bs _ hlen' hwas hwbs hc1
      have hunfold : specWords (a :: as) (b :: bs) c =
          ((a + b + c) % W32 ::
            (specWords as bs (if W32 ≤ a + b + c then 1 else 0)).1,
           (specWords as bs (if W32 ≤ a + b + c then 1 else 0)).2) := rfl
      rw [hunfold]
      refine ⟨hC, ?_⟩
      rw [toUnsignedLsw_cons, toUnsignedLsw_cons, toUnsignedLsw_cons]
      have hstep := wrap_step (a + b + c) (by omega)
      set r := specWords as bs (if W32 ≤ a + b + c then 1 else 0) with hr
      have key : W32 ^ (a :: as).length * r.2 +
          ((a + b + c) % W32 + W32 * toUnsignedLsw r.1) =
          W32 * (W32 ^ as.length * r.2 + toUnsignedLsw r.1) + (a + b + c) % W32 := by
        rw [List.length_cons]
        ring
      rw [key, hIH]
      have expand : W32 * (toUnsignedLsw as + toUnsignedLsw bs +
            (if W32 ≤ a + b + c then 1 else 0)) + (a + b + c) % W32 =
          W32 * toUnsignedLsw as + W32 * toUnsignedLsw bs +
            (W32 * (if W32 ≤ a + b + c then 1 else 0) + (a + b + c) % W32) := by
        ring
      rw [expand, hstep]
      ring

theorem carry_step_eq (a b c : Nat) (ha : a < W32) (hb : b < W32) (hc : c ≤ 1)
    (hnt : ¬(a = MAX32 ∧ b = MAX32 ∧ c = 1)) :
    (if (a + b + c) % W32 < a ∨ (a + b + c) % W32 < b then 1 else 0) =
      (if W32 ≤ a + b + c then 1 else 0) := by
  have hW : W32 = 4294967296 := by norm_num [W32]
  have hM : MAX32 = 4294967295 := by norm_num [MAX32, W32]
  rw [hW] at ha hb ⊢
  rw [hM] at hnt
  by_cases hov : 4294967296 ≤ a + b + c
  · rw [if_pos hov]
    have hmod : (a + b + c) % 4294967296 = a + b + c - 4294967296 := by omega
    have hcond : (a + b + c) % 4294967296 < a ∨ (a + b + c) % 4294967296 < b := by
      rw [hmod]
      by_cases hab : a = 4294967295 ∧ b = 4294967295
      · omega
      · omega
    rw [if_pos hcond]
  · rw [if_neg hov]
    have hmod : (a + b + c) % 4294967296 = a + b + c := Nat.mod_eq_of_lt (by omega)
    have hcond : ¬((a + b + c) % 4294967296 < a ∨ (a + b + c) % 4294967296 < b) := by
      rw [hmod]
      omega
    rw [if_neg hcond]

theorem addWords_eq_specWords (x : List Nat) : ∀ (y : List Nat) (c : Nat),
    wf x → wf y → c ≤ 1 → noTrigger x y c →
    addWords x y c = specWords x y c := by
  induction x with
  | nil => intro y c _ _ _ _; cases y <;> rfl
  | cons a as ih =>
    intro y c hwx hwy hc hnt
    cases y with
    | nil => rfl
    | cons b bs =>
      have hnt' : ¬(a = MAX32 ∧ b = MAX32 ∧ c = 1) ∧
          noTrigger as bs (if W32 ≤ a + b + c then 1 else 0) := hnt
      have ha := hwx a (List.mem_cons_self _ _)
      have hb := hwy b (List.mem_cons_self _ _)
      have hwas : wf as := fun w hw => hwx w (List.mem_cons_of_mem _ hw)
      have hwbs : wf bs := fun w hw => hwy w (List.mem_cons_of_mem _ hw)
      have hcarry := carry_step_eq a b c ha hb hc hnt'.1
      have hc1 : (if W32 ≤ a + b + c then 1 else 0) ≤ 1 := by split <;> omega
      have hrec := ih bs _ hwas hwbs hc1 hnt'.2
      have h1 : addWords (a :: as) (b :: bs) c =
          ((a + b + c) % W32 ::
            (addWords as bs
              (if (a + b + c) % W32 < a ∨ (a + b + c) % W32 < b then 1 else 0)).1,
           (addWords as bs
              (if (a + b + c) % W32 < a ∨ (a + b + c) % W32 < b then 1 else 0)).2) := rfl
      have h2 : specWords (a :: as) (b :: bs) c =
          ((a + b + c) % W32 ::
            (specWords as bs (if W32 ≤ a + b + c then 1 else 0)).1,
           (specWords as bs (if W32 ≤ a + b + c then 1 else 0)).2) := rfl
      rw [h1, h2, hcarry, hrec]

theorem noTrigger_of_no_max (x : List Nat) : ∀ (y : List Nat) (c : Nat),
    (∀ b ∈ y, b ≠ MAX32) → noTrigger x y c := by
  induction x with
  | nil =>
    intro y c _
    cases y <;> trivial
  | cons a as ih =>
    intro y c hy
    cases y with
    | nil => trivial
    | cons b bs =>
      refine ⟨?_, ?_⟩
      · rintro ⟨-, hbmax, -⟩
        exact hy b (List.mem_cons_self _ _) hbmax
      · exact ih bs _ fun w hw => hy w (List.mem_cons_of_mem _ hw)

theorem noTrigger_of_dvd (x : List Nat) : ∀ (y : List Nat) (c : Nat),
    x.length = y.length → wf x → wf y → c ≤ 1 →
    W32 ^ x.length ∣ toUnsignedLsw x + toUnsignedLsw y + c →
    noTrigger x y c := by
  induction x with
  | nil =>
    intro y c _ _ _ _ _
    cases y <;> trivial
  | cons a as ih =>
    intro y c hlen hwx hwy hc hdvd
    cases y with
    | nil => simp at hlen
    | cons b bs =>
      have hlen' : as.length = bs.length := by simpa using hlen
      have ha := hwx a (List.mem_cons_self _ _)
      have hb := hwy b (List.mem_cons_self _ _)
      have hwas : wf as := fun w hw => hwx w (List.mem_cons_of_mem _ hw)
      have hwbs : wf bs := fun w hw => hwy w (List.mem_cons_of_mem _ hw)
      obtain ⟨k, hk⟩ := hdvd
      rw [toUnsignedLsw_cons, toUnsignedLsw_cons] at hk
      rw [List.length_cons] at hk
      have hk' : a + b + c + W32 * (toUnsignedLsw as + toUnsignedLsw bs) =
          W32 * (W32 ^ as.length * k) := by
        calc a + b + c + W32 * (toUnsignedLsw as + toUnsignedLsw bs)
            = a + W32 * toUnsignedLsw as + (b + W32 * toUnsignedLsw bs) + c := by
              ring
          _ = W32 ^ (as.length + 1) * k := hk
          _ = W32 * (W32 ^ as.length * k) := by ring
      have hW : W32 = 4294967296 := by norm_num [W32]
      have htmod : a + b + c = 0 ∨ a + b + c = W32 := by
        set u := toUnsignedLsw as + toUnsignedLsw bs with hu
        set v := W32 ^ as.length * k with hv
        rw [hW] at hk' ⊢
        omega
      refine ⟨?_, ?_⟩
      · rintro ⟨rfl, rfl, rfl⟩
        have hM : MAX32 = 4294967295 := by norm_num [MAX32, W32]
        rw [hM] at htmod
        rw [hW] at htmod
        omega
      · have hc1 : (if W32 ≤ a + b + c then 1 else 0) ≤ 1 := by split <;> omega
        apply ih bs _ hlen' hwas hwbs hc1
        have hc1val : W32 * (if W32 ≤ a + b + c then 1 else 0) = a + b + c := by
          rcases htmod with h0 | h0
          · rw [h0]
            rw [if_neg]
            · ring
            · have := W32_pos; omega
          · rw [h0, if_pos (le_refl _)]
            ring
        refine ⟨k, ?_⟩
        have hmain : W32 * (toUnsignedLsw as + toUnsignedLsw bs +
            (if W32 ≤ a + b + c then 1 else 0)) = W32 * (W32 ^ as.length * k) := by
          calc W32 * (toUnsignedLsw as + toUnsignedLsw bs +
                (if W32 ≤ a + b + c then 1 else 0))
              = W32 * (if W32 ≤ a + b + c then 1 else 0) +
                  W32 * (toUnsignedLsw as + toUnsignedLsw bs) := by ring
            _ = a + b + c + W32 * (toUnsignedLsw as + toUnsignedLsw bs) := by
                rw [hc1val]
            _ = W32 * (W32 ^ as.length * k) := hk'
        exact Nat.eq_of_mul_eq_mul_left W32_pos hmain

theorem addWords_zero_right (x : List Nat) (h : wf x) :
    addWords x (List.replicate x.length 0) 0 = (x, 0) := by
  induction x with
  | nil => rfl
  | cons a as ih =>
    have ha := h a (List.mem_cons_self _ _)
    have hwas : wf as := fun w hw => h w (List.mem_cons_of_mem _ hw)
    have hsum : (a + 0 + 0) % W32 = a := Nat.mod_eq_of_lt ha
    have hcarry : (if (a + 0 + 0) % W32 < a ∨ (a + 0 + 0) % W32 < 0 then 1
        else 0) = 0 := by
      rw [if_neg]
      rw [hsum]
      omega
    have hrec := ih hwas
    have hlist : List.replicate (a :: as).length 0 =
        0 :: List.replicate as.length 0 := rfl
    rw [hlist]
    have h1 : addWords (a :: as) (0 :: List.replicate as.length 0) 0 =
        ((a + 0 + 0) % W32 ::
          (addWords as (List.replicate as.length 0)
            (if (a + 0 + 0) % W32 < a ∨ (a + 0 + 0) % W32 < 0 then 1 else 0)).1,
         (addWords as (List.replicate as.length 0)
            (if (a + 0 + 0) % W32 < a ∨ (a + 0 + 0) % W32 < 0 then 1 else 0)).2) :=
      rfl
    rw [h1, hcarry, hrec, hsum]

end BigIntSpec

namespace BigIntSpec

/-! ### Helpers for the addition correctness argument -/

theorem value_nonneg (c : List Nat) (h : c.headI &&& SIGN_MASK = 0) :
    0 ≤ value c := by
  rw [value_of_head_zero _ h]
  exact Int.ofNat_nonneg _

theorem value_neg (c : List Nat) (hw : wf c) (h : ¬ c.headI &&& SIGN_MASK = 0) :
    value c < 0 := by
  rw [value_of_head_sign _ h]
  have hU := toUnsigned_lt c hw
  have : (toUnsigned c : Int) < (W32 : Int) ^ c.length := by exact_mod_cast hU
  linarith

/-- The sign correction of `value` is `0` or one full power, extracted as an
integer multiplier. -/
theorem value_delta (c : List Nat) : ∃ m : Int, (m = 0 ∨ m = 1) ∧
    value c = (toUnsigned c : Int) - (W32 : Int) ^ c.length * m := by
  by_cases h : c.headI &&& SIGN_MASK = 0
  · exact ⟨0, Or.inl rfl, by rw [value_of_head_zero _ h]; ring⟩
  · exact ⟨1, Or.inr rfl, by rw [value_of_head_sign _ h]; ring⟩

theorem pow_le_pow_int (a b : Nat) (h : a ≤ b) :
    (W32 : Int) ^ a ≤ (W32 : Int) ^ b := by
  apply pow_le_pow_right
  · norm_num [W32]
  · exact h

/-- Bounds on the value of a non-empty well-formed carrier of length at most
`m + 1`, stated against the width-`m + 1` half-range. -/
theorem value_bounds_le (c : List Nat) (hw : wf c) (hne : c ≠ []) (m : Nat)
    (hm : c.length ≤ m + 1) :
    -((SIGN_MASK : Int) * (W32 : Int) ^ m) ≤ value c ∧
      value c < (SIGN_MASK : Int) * (W32 : Int) ^ m := by
  obtain ⟨w, t, rfl⟩ := List.exists_cons_of_ne_nil hne
  obtain ⟨h1, h2⟩ := value_bounds w t hw
  have hlen : t.length ≤ m := by
    have := hm
    simp only [List.length_cons] at this
    omega
  have hmono : (W32 : Int) ^ t.length ≤ (W32 : Int) ^ m := pow_le_pow_int _ _ hlen
  have hS : (0 : Int) ≤ (SIGN_MASK : Int) := Int.ofNat_nonneg _
  have hsm : (SIGN_MASK : Int) * (W32 : Int) ^ t.length ≤
      (SIGN_MASK : Int) * (W32 : Int) ^ m := by
    apply mul_le_mul_of_nonneg_left hmono hS
  constructor
  · linarith
  · linarith

theorem wf_reverse (c : List Nat) (h : wf c) : wf c.reverse :=
  fun w hw => h w (List.mem_reverse.mp hw)

theorem sign_mask_double_int : 2 * (SIGN_MASK : Int) = (W32 : Int) := by
  have := sign_mask_double
  have h : ((SIGN_MASK * 2 : Nat) : Int) = ((W32 : Nat) : Int) := by
    exact_mod_cast congrArg (fun n : Nat => (n : Int)) this
  push_cast at h
  linarith

end BigIntSpec

namespace BigIntSpec

set_option maxHeartbeats 1000000 in
/-- Core correctness of `add` in the absence of the carry-rule failure
pattern: when no loop position pairs two `u32::MAX` words with carry-in `1`,
and the operands are not both negative, `add` returns the exact sum. -/
theorem add_value_core (x y : BigInt)
    (hwx : wf x.carrier) (hwy : wf y.carrier)
    (hnx : x.carrier ≠ []) (hny : y.carrier ≠ [])
    (hnt : noTrigger
      (sign_extension x (max x.carrier.length y.carrier.length + 1)).carrier.reverse
      (sign_extension y (max x.carrier.length y.carrier.length + 1)).carrier.reverse 0)
    (hmix : x.carrier.headI &&& SIGN_MASK = 0 ∨ y.carrier.headI &&& SIGN_MASK = 0) :
    value (add x y).carrier = value x.carrier + value y.carrier := by
  set L := max x.carrier.length y.carrier.length with hL
  set xe := sign_extension x (L + 1) with hxe
  set ye := sign_extension y (L + 1) with hye
  have hLx : x.carrier.length ≤ L + 1 := le_trans (le_max_left _ _) (Nat.le_succ _)
  have hLy : y.carrier.length ≤ L + 1 := le_trans (le_max_right _ _) (Nat.le_succ _)
  have hLpos : 1 ≤ L := by
    have : 0 < x.carrier.length := List.length_pos.mpr hnx
    have : x.carrier.length ≤ L := le_max_left _ _
    omega
  obtain ⟨Lm, hLm⟩ : ∃ Lm, L = Lm + 1 := ⟨L - 1, by omega⟩
  have hxlen : xe.carrier.length = L + 1 := length_sign_extension _ _ hLx
  have hylen : ye.carrier.length = L + 1 := length_sign_extension _ _ hLy
  have hwxe : wf xe.carrier := wf_sign_extension _ _ hwx
  have hwye : wf ye.carrier := wf_sign_extension _ _ hwy
  have hvxe : value xe.carrier = value x.carrier := value_sign_extension _ _
  have hvye : value ye.carrier = value y.carrier := value_sign_extension _ _
  have hxne : xe.carrier ≠ [] := by
    intro hcon
    rw [hcon] at hxlen
    simp at hxlen
  have hyne : ye.carrier ≠ [] := by
    intro hcon
    rw [hcon] at hylen
    simp at hylen
  have hrevlen : xe.carrier.reverse.length = ye.carrier.reverse.length := by
    simp [hxlen, hylen]
  have hwrx : wf xe.carrier.reverse := wf_reverse _ hwxe
  have hwry : wf ye.carrier.reverse := wf_reverse _ hwye
  have hloops := addWords_eq_specWords xe.carrier.reverse ye.carrier.reverse 0
      hwrx hwry (by omega) hnt
  obtain ⟨hC, hEq⟩ := specWords_correct xe.carrier.reverse ye.carrier.reverse 0
      hrevlen hwrx hwry (by omega)
  have hadddef : add x y = truncate (new_large
      ((if 0 < (addWords xe.carrier.reverse ye.carrier.reverse 0).2 then
          (addWords xe.carrier.reverse ye.carrier.reverse 0).1.dropLast
        else (addWords xe.carrier.reverse ye.carrier.reverse 0).1).reverse)) := rfl
  rw [hloops] at hadddef
  set S := (specWords xe.carrier.reverse ye.carrier.reverse 0).1 with hS
  set C := (specWords xe.carrier.reverse ye.carrier.reverse 0).2 with hCdef
  have hSlen : S.length = L + 1 := by
    rw [hS, specWords_length]
    simp [hxlen, hylen]
  have hSwf : wf S := by
    rw [hS, ← hloops]
    exact addWords_wf _ _ _
  have hXrel : toUnsignedLsw xe.carrier.reverse = toUnsigned xe.carrier :=
    (toUnsigned_eq_lsw_reverse _).symm
  have hYrel : toUnsignedLsw ye.carrier.reverse = toUnsigned ye.carrier :=
    (toUnsigned_eq_lsw_reverse _).symm
  have hexplen : xe.carrier.reverse.length = L + 1 := by simp [hxlen]
  rw [hexplen, hXrel, hYrel] at hEq
  have hSM1 : (1 : Int) ≤ (SIGN_MASK : Int) := by norm_num [SIGN_MASK]
  have hWLpos := W32_int_pos L
  have hWLmpos := W32_int_pos Lm
  have hsum_bounds :
      -((SIGN_MASK : Int) * (W32 : Int) ^ Lm) ≤ value x.carrier + value y.carrier →
      value x.carrier + value y.carrier < (SIGN_MASK : Int) * (W32 : Int) ^ Lm →
      True := fun _ _ => trivial
  clear hsum_bounds
  have hCval : C = 0 ∨ C = 1 := by omega
  rcases hCval with hC0 | hC1
  · -- no pop: the result is the reversed sum sequence
    rw [hC0] at hadddef
    have hif : (if 0 < (0 : Nat) then S.dropLast else S) = S := if_neg (by omega)
    rw [hif] at hadddef
    rw [hadddef]
    have hnl : new_large S.reverse = (⟨S.reverse⟩ : BigInt) := rfl
    rw [hnl, value_truncate]
    rw [← hvxe, ← hvye]
    have hSrevne : S.reverse ≠ [] := by
      intro hcon
      have := congrArg List.length hcon
      simp [hSlen] at this
    have hSrevwf : wf S.reverse := wf_reverse _ hSwf
    have hSrevlen : S.reverse.length = L + 1 := by simp [hSlen]
    have hba := value_bounds_le S.reverse hSrevwf hSrevne L (by omega)
    obtain ⟨mR, hmR01, hmRv⟩ := value_delta S.reverse
    obtain ⟨mx, hmx01, hmxv⟩ := value_delta xe.carrier
    obtain ⟨my, hmy01, hmyv⟩ := value_delta ye.carrier
    rw [hSrevlen] at hmRv
    rw [hxlen] at hmxv
    rw [hylen] at hmyv
    have hXYnat : toUnsignedLsw S = toUnsigned xe.carrier + toUnsigned ye.carrier := by
      rw [hC0] at hEq
      omega
    have hXY : (toUnsigned S.reverse : Int) =
        (toUnsigned xe.carrier : Int) + (toUnsigned ye.carrier : Int) := by
      have h1 : toUnsigned S.reverse = toUnsignedLsw S := by
        rw [toUnsigned_eq_lsw_reverse, List.reverse_reverse]
      rw [h1]
      exact_mod_cast congrArg (fun n : Nat => (n : Int)) hXYnat
    apply int_eq_of_interval _ _ ((SIGN_MASK : Int) * (W32 : Int) ^ L)
    · have h2H : 2 * ((SIGN_MASK : Int) * (W32 : Int) ^ L) = (W32 : Int) ^ (L + 1) := by
        rw [pow_succ, ← sign_mask_double_int]
        ring
      rw [h2H]
      refine ⟨mx + my - mR, ?_⟩
      rw [hmRv, hmxv, hmyv, hXY]
      ring
    · exact hba.1
    · exact hba.2
    · -- tighter bound on the true sum from the original widths
      have hbx := value_bounds_le x.carrier hwx hnx Lm (by omega)
      have hby := value_bounds_le y.carrier hwy hny Lm (by omega)
      have hWL : (W32 : Int) ^ L = 2 * (SIGN_MASK : Int) * (W32 : Int) ^ Lm := by
        rw [hLm, pow_succ, ← sign_mask_double_int]
        ring
      have h1 : -((W32 : Int) ^ L) ≤ value x.carrier + value y.carrier := by
        rw [hWL]
        linarith [hbx.1, hby.1]
      have h2 : (W32 : Int) ^ L ≤ (SIGN_MASK : Int) * (W32 : Int) ^ L :=
        le_mul_of_one_le_left (le_of_lt hWLpos) hSM1
      linarith
    · have hbx := value_bounds_le x.carrier hwx hnx Lm (by omega)
      have hby := value_bounds_le y.carrier hwy hny Lm (by omega)
      have hWL : (W32 : Int) ^ L = 2 * (SIGN_MASK : Int) * (W32 : Int) ^ Lm := by
        rw [hLm, pow_succ, ← sign_mask_double_int]
        ring
      have h1 : value x.carrier + value y.carrier < (W32 : Int) ^ L := by
        rw [hWL]
        linarith [hbx.2, hby.2]
      have h2 : (W32 : Int) ^ L ≤ (SIGN_MASK : Int) * (W32 : Int) ^ L :=
        le_mul_of_one_le_left (le_of_lt hWLpos) hSM1
      linarith
  · -- pop: the guard word is dropped; exactly one operand is negative
    rw [hC1] at hadddef
    have hif : (if 0 < (1 : Nat) then S.dropLast else S) = S.dropLast :=
      if_pos (by omega)
    rw [hif] at hadddef
    have hSM_num : SIGN_MASK = 2147483648 := by norm_num [SIGN_MASK]
    -- the two operands cannot both be non-negative when the final carry is 1
    have hsum_bounds :
        -((SIGN_MASK : Int) * (W32 : Int) ^ Lm) ≤
            value x.carrier + value y.carrier ∧
          value x.carrier + value y.carrier <
            (SIGN_MASK : Int) * (W32 : Int) ^ Lm := by
      have hbx := value_bounds_le x.carrier hwx hnx Lm (by omega)
      have hby := value_bounds_le y.carrier hwy hny Lm (by omega)
      by_cases hx0 : x.carrier.headI &&& SIGN_MASK = 0
      · by_cases hy0 : y.carrier.headI &&& SIGN_MASK = 0
        · exfalso
          have hxh := headI_and_sign_extension x (L + 1)
          have hyh := headI_and_sign_extension y (L + 1)
          obtain ⟨wx, tx, hxc⟩ := List.exists_cons_of_ne_nil hxne
          obtain ⟨wy, ty, hyc⟩ := List.exists_cons_of_ne_nil hyne
          have hwxW : wx < W32 := hwxe wx (by rw [hxc]; exact List.mem_cons_self _ _)
          have hwyW : wy < W32 := hwye wy (by rw [hyc]; exact List.mem_cons_self _ _)
          have hwxSM : wx &&& SIGN_MASK = 0 := by
            have h1 := hxh
            rw [hxc] at h1
            simp only [List.headI] at h1
            rw [h1]
            exact hx0
          have hwySM : wy &&& SIGN_MASK = 0 := by
            have h1 := hyh
            rw [hyc] at h1
            simp only [List.headI] at h1
            rw [h1]
            exact hy0
          have hwxlt : wx < SIGN_MASK := (and_sign_mask_eq_zero_iff wx hwxW).mp hwxSM
          have hwylt : wy < SIGN_MASK := (and_sign_mask_eq_zero_iff wy hwyW).mp hwySM
          have htxlen : tx.length = L := by
            have h1 := hxlen
            rw [hxc] at h1
            simp at h1
            omega
          have htylen : ty.length = L := by
            have h1 := hylen
            rw [hyc] at h1
            simp at h1
            omega
          have hXlt : toUnsigned xe.carrier < SIGN_MASK * W32 ^ L := by
            rw [hxc]
            have h1 := toUnsigned_head_lt wx tx (by rw [← hxc]; exact hwxe) hwxlt
            rw [htxlen] at h1
            exact h1
          have hYlt : toUnsigned ye.carrier < SIGN_MASK * W32 ^ L := by
            rw [hyc]
            have h1 := toUnsigned_head_lt wy ty (by rw [← hyc]; exact hwye) hwylt
            rw [htylen] at h1
            exact h1
          have hNat : SIGN_MASK * W32 ^ L + SIGN_MASK * W32 ^ L = W32 ^ (L + 1) := by
            calc SIGN_MASK * W32 ^ L + SIGN_MASK * W32 ^ L
                = (SIGN_MASK * 2) * W32 ^ L := by ring
              _ = W32 * W32 ^ L := by rw [sign_mask_double]
              _ = W32 ^ (L + 1) := by rw [pow_succ]; ring
          rw [hC1] at hEq
          rw [hSM_num] at hXlt hYlt hNat
          omega
        · have h1 : 0 ≤ value x.carrier := value_nonneg _ hx0
          have h2 : value y.carrier < 0 := value_neg _ hwy hy0
          constructor
          · linarith [hbx.1, hby.1]
          · linarith [hbx.2, hby.2]
      · rcases hmix with hx0' | hy0
        · exact absurd hx0' hx0
        · have h1 : 0 ≤ value y.carrier := value_nonneg _ hy0
          have h2 : value x.carrier < 0 := value_neg _ hwx hx0
          constructor
          · linarith [hbx.1, hby.1]
          · linarith [hbx.2, hby.2]
    -- bookkeeping for the popped result
    have hSne : S ≠ [] := by
      intro hcon
      have := congrArg List.length hcon
      simp [hSlen] at this
    have hdropLen : S.dropLast.length = L := by
      rw [List.length_dropLast, hSlen]
      omega
    have hRlen : S.dropLast.reverse.length = L := by simp [hdropLen]
    have hRne : S.dropLast.reverse ≠ [] := by
      intro hcon
      have := congrArg List.length hcon
      rw [hRlen] at this
      simp at this
      omega
    have hRwf : wf S.dropLast.reverse := by
      apply wf_reverse
      intro w hw
      exact hSwf w (List.dropLast_subset _ hw)
    have hsplit := List.dropLast_append_getLast hSne
    have hgW : S.getLast hSne < W32 := hSwf _ (List.getLast_mem hSne)
    have htoLswS : toUnsignedLsw S =
        toUnsignedLsw S.dropLast + W32 ^ L * S.getLast hSne := by
      conv_lhs => rw [← hsplit]
      rw [toUnsignedLsw_append]
      have hsing : toUnsignedLsw [S.getLast hSne] = S.getLast hSne := by
        simp [toUnsignedLsw]
      rw [hsing, hdropLen]
    have hRU : toUnsigned S.dropLast.reverse = toUnsignedLsw S.dropLast := by
      rw [toUnsigned_eq_lsw_reverse, List.reverse_reverse]
    rw [hadddef]
    have hnl : new_large S.dropLast.reverse = (⟨S.dropLast.reverse⟩ : BigInt) := rfl
    rw [hnl, value_truncate]
    rw [← hvxe, ← hvye]
    obtain ⟨mR, hmR01, hmRv⟩ := value_delta S.dropLast.reverse
    obtain ⟨mx, hmx01, hmxv⟩ := value_delta xe.carrier
    obtain ⟨my, hmy01, hmyv⟩ := value_delta ye.carrier
    rw [hRlen] at hmRv
    rw [hxlen] at hmxv
    rw [hylen] at hmyv
    have hXYnat : W32 ^ (L + 1) + toUnsignedLsw S.dropLast +
        W32 ^ L * S.getLast hSne =
        toUnsigned xe.carrier + toUnsigned ye.carrier := by
      rw [hC1] at hEq
      rw [htoLswS] at hEq
      omega
    have hXYint : ((W32 : Int)) ^ (L + 1) + (toUnsignedLsw S.dropLast : Int) +
        (W32 : Int) ^ L * (S.getLast hSne : Int) =
        (toUnsigned xe.carrier : Int) + (toUnsigned ye.carrier : Int) := by
      exact_mod_cast congrArg (fun n : Nat => (n : Int)) hXYnat
    have hba := value_bounds_le S.dropLast.reverse hRwf hRne Lm (by omega)
    rw [← hvxe, ← hvye] at hsum_bounds
    apply int_eq_of_interval _ _ ((SIGN_MASK : Int) * (W32 : Int) ^ Lm)
    · have h2H : 2 * ((SIGN_MASK : Int) * (W32 : Int) ^ Lm) = (W32 : Int) ^ L := by
        rw [hLm, pow_succ, ← sign_mask_double_int]
        ring
      rw [h2H]
      refine ⟨(W32 : Int) * mx + (W32 : Int) * my - (W32 : Int) -
        (S.getLast hSne : Int) - mR, ?_⟩
      rw [hmRv, hmxv, hmyv, hRU]
      have hpows : (W32 : Int) ^ (L + 1) = (W32 : Int) ^ L * (W32 : Int) := by
        rw [pow_succ]
      calc (toUnsignedLsw S.dropLast : Int) - (W32 : Int) ^ L * mR -
            ((toUnsigned xe.carrier : Int) - (W32 : Int) ^ (L + 1) * mx +
              ((toUnsigned ye.carrier : Int) - (W32 : Int) ^ (L + 1) * my))
          = (toUnsignedLsw S.dropLast : Int) - (W32 : Int) ^ L * mR -
            ((toUnsigned xe.carrier : Int) + (toUnsigned ye.carrier : Int)) +
            (W32 : Int) ^ (L + 1) * mx + (W32 : Int) ^ (L + 1) * my := by ring
        _ = (toUnsignedLsw S.dropLast : Int) - (W32 : Int) ^ L * mR -
            ((W32 : Int) ^ (L + 1) + (toUnsignedLsw S.dropLast : Int) +
              (W32 : Int) ^ L * (S.getLast hSne : Int)) +
            (W32 : Int) ^ (L + 1) * mx + (W32 : Int) ^ (L + 1) * my := by
              rw [hXYint]
        _ = (W32 : Int) ^ L * ((W32 : Int) * mx + (W32 : Int) * my - (W32 : Int) -
              (S.getLast hSne : Int) - mR) := by
              rw [hpows]
              ring
    · exact hba.1
    · exact hba.2
    · exact hsum_bounds.1
    · exact hsum_bounds.2

end BigIntSpec

namespace BigIntSpec

/-! ### Adding to zero sum: the result collapses to `[0]` -/

theorem truncGo_zero_replicate (j : Nat) :
    truncGo 0 (List.replicate j 0) = [0] := by
  induction j with
  | zero => rfl
  | succ m ih =>
    rw [List.replicate_succ]
    rw [show truncGo 0 (0 :: List.replicate m 0) = truncGo 0 (List.replicate m 0) by
      simp [truncGo]]
    exact ih

theorem truncate_replicate_zero (k : Nat) (hk : 1 ≤ k) :
    (truncate ⟨List.replicate k 0⟩).carrier = [0] := by
  match k, hk with
  | 1, _ => rfl
  | (j + 2), _ =>
    rcases truncate_cases (List.replicate (j + 2) 0) with ⟨hid, hcase⟩ | hscan
    · exfalso
      rcases hcase with hlen | ⟨s, t, heq, hno⟩
      · simp at hlen
      · rw [List.replicate_succ] at heq
        have : s = 0 := by
          have := heq
          injection this with h1 h2
          exact h1.symm
        exact hno (Or.inl this)
    · obtain ⟨sign, rest, heq, hs, hlen2, hgo⟩ := hscan
      rw [List.replicate_succ] at heq
      injection heq with h1 h2
      rw [hgo, ← h1, ← h2]
      exact truncGo_zero_replicate (j + 1)

set_option maxHeartbeats 1000000 in
/-- When the represented values of two non-empty well-formed operands cancel,
`add` returns exactly the one-word carrier `[0]`.  The carry-rule failure
pattern cannot arise, because the word-wise sums of two values adding to zero
never pair two `u32::MAX` words. -/
theorem add_carrier_of_sum_zero (x y : BigInt)
    (hwx : wf x.carrier) (hwy : wf y.carrier)
    (hnx : x.carrier ≠ []) (hny : y.carrier ≠ [])
    (hzero : value x.carrier + value y.carrier = 0) :
    (add x y).carrier = [0] := by
  set L := max x.carrier.length y.carrier.length with hL
  set xe := sign_extension x (L + 1) with hxe
  set ye := sign_extension y (L + 1) with hye
  have hLx : x.carrier.length ≤ L + 1 := le_trans (le_max_left _ _) (Nat.le_succ _)
  have hLy : y.carrier.length ≤ L + 1 := le_trans (le_max_right _ _) (Nat.le_succ _)
  have hLpos : 1 ≤ L := by
    have h1 : 0 < x.carrier.length := List.length_pos.mpr hnx
    have h2 : x.carrier.length ≤ L := le_max_left _ _
    omega
  have hxlen : xe.carrier.length = L + 1 := length_sign_extension _ _ hLx
  have hylen : ye.carrier.length = L + 1 := length_sign_extension _ _ hLy
  have hwxe : wf xe.carrier := wf_sign_extension _ _ hwx
  have hwye : wf ye.carrier := wf_sign_extension _ _ hwy
  have hvxe : value xe.carrier = value x.carrier := value_sign_extension _ _
  have hvye : value ye.carrier = value y.carrier := value_sign_extension _ _
  have hrevlen : xe.carrier.reverse.length = ye.carrier.reverse.length := by
    simp [hxlen, hylen]
  have hwrx : wf xe.carrier.reverse := wf_reverse _ hwxe
  have hwry : wf ye.carrier.reverse := wf_reverse _ hwye
  obtain ⟨mx, hmx01, hmxv⟩ := value_delta xe.carrier
  obtain ⟨my, hmy01, hmyv⟩ := value_delta ye.carrier
  rw [hxlen] at hmxv
  rw [hylen] at hmyv
  have hzero' : value xe.carrier + value ye.carrier = 0 := by
    rw [hvxe, hvye]; exact hzero
  have hdvd_int : ((W32 : Int) ^ (L + 1)) ∣
      ((toUnsigned xe.carrier + toUnsigned ye.carrier : Nat) : Int) := by
    refine ⟨mx + my, ?_⟩
    push_cast
    rw [hmxv, hmyv] at hzero'
    linarith
  have hdvd : W32 ^ (L + 1) ∣ toUnsigned xe.carrier + toUnsigned ye.carrier := by
    have := hdvd_int
    rw [show ((W32 : Int) ^ (L + 1)) = ((W32 ^ (L + 1) : Nat) : Int) by push_cast; ring]
      at this
    exact_mod_cast this
  have hnt : noTrigger xe.carrier.reverse ye.carrier.reverse 0 := by
    apply noTrigger_of_dvd _ _ _ hrevlen hwrx hwry (by omega)
    have h1 : xe.carrier.reverse.length = L + 1 := by simp [hxlen]
    rw [h1, (toUnsigned_eq_lsw_reverse xe.carrier).symm,
      (toUnsigned_eq_lsw_reverse ye.carrier).symm]
    simpa using hdvd
  have hloops := addWords_eq_specWords xe.carrier.reverse ye.carrier.reverse 0
      hwrx hwry (by omega) hnt
  obtain ⟨hC, hEq⟩ := specWords_correct xe.carrier.reverse ye.carrier.reverse 0
      hrevlen hwrx hwry (by omega)
  have hadddef : add x y = truncate (new_large
      ((if 0 < (addWords xe.carrier.reverse ye.carrier.reverse 0).2 then
          (addWords xe.carrier.reverse ye.carrier.reverse 0).1.dropLast
        else (addWords xe.carrier.reverse ye.carrier.reverse 0).1).reverse)) := rfl
  rw [hloops] at hadddef
  set S := (specWords xe.carrier.reverse ye.carrier.reverse 0).1 with hS
  set C := (specWords xe.carrier.reverse ye.carrier.reverse 0).2 with hCdef
  have hSlen : S.length = L + 1 := by
    rw [hS, specWords_length]
    simp [hxlen, hylen]
  have hSwf : wf S := by
    rw [hS, ← hloops]
    exact addWords_wf _ _ _
  have hexplen : xe.carrier.reverse.length = L + 1 := by simp [hxlen]
  rw [hexplen, (toUnsigned_eq_lsw_reverse xe.carrier).symm,
    (toUnsigned_eq_lsw_reverse ye.carrier).symm] at hEq
  -- the sum words are all zero
  have hSzero : toUnsignedLsw S = 0 := by
    obtain ⟨d, hd⟩ := hdvd
    have hSlt : toUnsignedLsw S < W32 ^ (L + 1) := by
      have := toUnsignedLsw_lt S hSwf
      rw [hSlen] at this
      exact this
    have hmod : toUnsignedLsw S % W32 ^ (L + 1) = 0 := by
      have h1 : (toUnsignedLsw S + W32 ^ (L + 1) * C) % W32 ^ (L + 1) =
          toUnsignedLsw S % W32 ^ (L + 1) := Nat.add_mul_mod_self_left _ _ _
      have h2 : toUnsignedLsw S + W32 ^ (L + 1) * C =
          toUnsigned xe.carrier + toUnsigned ye.carrier := by omega
      rw [h2, hd] at h1
      rw [← h1]
      exact Nat.mul_mod_right _ _
    rw [Nat.mod_eq_of_lt hSlt] at hmod
    exact hmod
  have hSrep : S = List.replicate (L + 1) 0 := by
    have hall : ∀ w ∈ S, w = 0 := toUnsignedLsw_eq_zero S hSzero
    have := List.eq_replicate_of_mem hall
    rw [hSlen] at this
    exact this
  rcases (by omega : C = 0 ∨ C = 1) with hC0 | hC1
  · rw [hC0] at hadddef
    have hif : (if 0 < (0 : Nat) then S.dropLast else S) = S := if_neg (by omega)
    rw [hif, hSrep, List.reverse_replicate] at hadddef
    rw [hadddef]
    exact truncate_replicate_zero (L + 1) (by omega)
  · rw [hC1] at hadddef
    have hif : (if 0 < (1 : Nat) then S.dropLast else S) = S.dropLast :=
      if_pos (by omega)
    rw [hif, hSrep] at hadddef
    have hdrop : (List.replicate (L + 1) 0).dropLast = List.replicate L 0 := by
      rw [List.replicate_succ']
      exact List.dropLast_concat
    rw [hdrop, List.reverse_replicate] at hadddef
    rw [hadddef]
    exact truncate_replicate_zero L (by omega)

end BigIntSpec

namespace BigIntSpec

/-! ### Well-formedness and non-emptiness of `add` results -/

theorem wf_add (x y : BigInt) : wf (add x y).carrier := by
  have hdef : add x y = truncate (new_large
      ((if 0 < (addWords
          (sign_extension x (max x.carrier.length y.carrier.length + 1)).carrier.reverse
          (sign_extension y (max x.carrier.length y.carrier.length + 1)).carrier.reverse
          0).2 then
        (addWords
          (sign_extension x (max x.carrier.length y.carrier.length + 1)).carrier.reverse
          (sign_extension y (max x.carrier.length y.carrier.length + 1)).carrier.reverse
          0).1.dropLast
      else
        (addWords
          (sign_extension x (max x.carrier.length y.carrier.length + 1)).carrier.reverse
          (sign_extension y (max x.carrier.length y.carrier.length + 1)).carrier.reverse
          0).1).reverse)) := rfl
  rw [hdef]
  apply wf_truncate
  apply wf_reverse
  have hwf := addWords_wf
      (sign_extension x (max x.carrier.length y.carrier.length + 1)).carrier.reverse
      (sign_extension y (max x.carrier.length y.carrier.length + 1)).carrier.reverse 0
  split
  · intro w hw
    exact hwf w (List.dropLast_subset _ hw)
  · exact hwf

theorem add_ne_nil (x y : BigInt) (hx : x.carrier ≠ []) :
    (add x y).carrier ≠ [] := by
  have hdef : add x y = truncate (new_large
      ((if 0 < (addWords
          (sign_extension x (max x.carrier.length y.carrier.length + 1)).carrier.reverse
          (sign_extension y (max x.carrier.length y.carrier.length + 1)).carrier.reverse
          0).2 then
        (addWords
          (sign_extension x (max x.carrier.length y.carrier.length + 1)).carrier.reverse
          (sign_extension y (max x.carrier.length y.carrier.length + 1)).carrier.reverse
          0).1.dropLast
      else
        (addWords
          (sign_extension x (max x.carrier.length y.carrier.length + 1)).carrier.reverse
          (sign_extension y (max x.carrier.length y.carrier.length + 1)).carrier.reverse
          0).1).reverse)) := rfl
  rw [hdef]
  apply truncate_ne_nil
  have hL1 : 1 ≤ max x.carrier.length y.carrier.length := by
    have h1 : 0 < x.carrier.length := List.length_pos.mpr hx
    have h2 : x.carrier.length ≤ max x.carrier.length y.carrier.length :=
      le_max_left _ _
    omega
  have hxlen : (sign_extension x (max x.carrier.length y.carrier.length + 1)).carrier.length
      = max x.carrier.length y.carrier.length + 1 :=
    length_sign_extension _ _ (le_trans (le_max_left _ _) (Nat.le_succ _))
  have hylen : (sign_extension y (max x.carrier.length y.carrier.length + 1)).carrier.length
      = max x.carrier.length y.carrier.length + 1 :=
    length_sign_extension _ _ (le_trans (le_max_right _ _) (Nat.le_succ _))
  have hlen1 : (addWords
      (sign_extension x (max x.carrier.length y.carrier.length + 1)).carrier.reverse
      (sign_extension y (max x.carrier.length y.carrier.length + 1)).carrier.reverse
      0).1.length = max x.carrier.length y.carrier.length + 1 := by
    rw [addWords_length]
    simp [hxlen, hylen]
  intro hcon
  have hlencon := congrArg List.length hcon
  rw [List.length_reverse] at hlencon
  simp only [List.length_nil] at hlencon
  split at hlencon
  · rw [List.length_dropLast, hlen1] at hlencon
    omega
  · rw [hlen1] at hlencon
    omega

/-! ### Two's-complement negation -/

theorem toUnsigned_complement (l : List Nat) (h : wf l) :
    (toUnsigned (l.map fun x => MAX32 - x) : Int) =
      (W32 : Int) ^ l.length - 1 - (toUnsigned l : Int) := by
  induction l with
  | nil => simp
  | cons w t ih =>
    have hw := h w (List.mem_cons_self _ _)
    have hwf' : wf t := fun u hu => h u (List.mem_cons_of_mem _ hu)
    rw [List.map_cons, toUnsigned_cons, toUnsigned_cons]
    push_cast
    rw [List.length_map]
    rw [ih hwf']
    have hwle : w ≤ MAX32 := by
      have := MAX32_lt_W32
      have : MAX32 = W32 - 1 := rfl
      omega
    have hMw : ((MAX32 - w : Nat) : Int) = (MAX32 : Int) - (w : Int) :=
      Nat.cast_sub hwle
    rw [hMw]
    have hM : (MAX32 : Int) = (W32 : Int) - 1 := by
      have h1 : (1 : Nat) ≤ W32 := by norm_num [W32]
      have h2 : ((MAX32 : Nat) : Int) = ((W32 - 1 : Nat) : Int) := by
        norm_num [MAX32]
      rw [h2, Nat.cast_sub h1]
      simp
    rw [hM, List.length_cons, pow_succ]
    ring

theorem complement_head_sign (l : List Nat) (hw : wf l) (hne : l ≠ []) :
    ((l.map fun x => MAX32 - x).headI &&& SIGN_MASK = 0) ↔
      ¬(l.headI &&& SIGN_MASK = 0) := by
  obtain ⟨w, t, rfl⟩ := List.exists_cons_of_ne_nil hne
  simp only [List.map_cons, List.headI]
  have hwW : w < W32 := hw w (List.mem_cons_self _ _)
  have hcW : MAX32 - w < W32 := by
    have := MAX32_lt_W32
    omega
  rw [and_sign_mask_eq_zero_iff _ hcW, and_sign_mask_eq_zero_iff _ hwW]
  have h1 : SIGN_MASK = 2147483648 := by norm_num [SIGN_MASK]
  have h2 : MAX32 = 4294967295 := by norm_num [MAX32, W32]
  have h3 : W32 = 4294967296 := by norm_num [W32]
  rw [h1, h2]
  rw [h3] at hwW
  omega

set_option maxHeartbeats 1000000 in
/-- `two_complement` negates the represented value, preserves
well-formedness and never empties the carrier.  The internal `add` is exact
here: the second operand `1` extends to words `0` and `1` only, so the
carry-rule failure pattern (which needs a `u32::MAX` word on both sides)
cannot arise. -/
theorem two_complement_props (v : BigInt) (hwv : wf v.carrier)
    (hnv : v.carrier ≠ []) :
    value (two_complement v).carrier = -(value v.carrier) ∧
      wf (two_complement v).carrier ∧ (two_complement v).carrier ≠ [] := by
  have hdef : two_complement v =
      add (new_large (v.carrier.map fun x => MAX32 - x)) (new 1) := rfl
  have hwcomp : wf (v.carrier.map fun x => MAX32 - x) := by
    intro w hw
    rcases List.mem_map.mp hw with ⟨u, _, rfl⟩
    have := MAX32_lt_W32
    omega
  have hcompne : (v.carrier.map fun x => MAX32 - x) ≠ [] := by
    intro hcon
    rw [List.map_eq_nil] at hcon
    exact hnv hcon
  have hvcomp : value (v.carrier.map fun x => MAX32 - x) =
      -(value v.carrier) - 1 := by
    have hUc := toUnsigned_complement v.carrier hwv
    by_cases h : v.carrier.headI &&& SIGN_MASK = 0
    · have hcs : ¬ ((v.carrier.map fun x => MAX32 - x).headI &&& SIGN_MASK = 0) := by
        intro hcon
        exact (complement_head_sign v.carrier hwv hnv).mp hcon h
      rw [value_of_head_sign _ hcs, value_of_head_zero _ h, hUc, List.length_map]
      ring
    · have hcs : (v.carrier.map fun x => MAX32 - x).headI &&& SIGN_MASK = 0 :=
        (complement_head_sign v.carrier hwv hnv).mpr h
      rw [value_of_head_zero _ hcs, value_of_head_sign _ h, hUc]
      ring
  have h1sm : ((new 1).carrier.headI &&& SIGN_MASK) = 0 := by decide
  have hfill1 : fillWord (new 1).carrier = 0 := by
    unfold fillWord
    rw [if_pos h1sm]
  have hone : value (new 1).carrier = 1 := by
    rw [value_of_head_zero _ h1sm]
    norm_num [new, toUnsigned]
  have hw1 : wf (new 1).carrier := by
    intro w hw
    simp only [new] at hw
    rcases List.mem_singleton.mp hw with rfl
    norm_num [W32]
  have h1ne : (new 1).carrier ≠ [] := by simp [new]
  have hnt : noTrigger
      (sign_extension (new_large (v.carrier.map fun x => MAX32 - x))
        (max (new_large (v.carrier.map fun x => MAX32 - x)).carrier.length
          (new 1).carrier.length + 1)).carrier.reverse
      (sign_extension (new 1)
        (max (new_large (v.carrier.map fun x => MAX32 - x)).carrier.length
          (new 1).carrier.length + 1)).carrier.reverse 0 := by
    apply noTrigger_of_no_max
    intro b hb
    rw [List.mem_reverse] at hb
    rw [sign_extension_carrier, hfill1] at hb
    rcases List.mem_append.mp hb with hb | hb
    · have := List.eq_of_mem_replicate hb
      subst this
      norm_num [MAX32, W32]
    · have : b = 1 := List.mem_singleton.mp hb
      subst this
      norm_num [MAX32, W32]
  have hcore := add_value_core (new_large (v.carrier.map fun x => MAX32 - x))
      (new 1) hwcomp hw1 hcompne h1ne hnt (Or.inr h1sm)
  rw [hdef]
  refine ⟨?_, wf_add _ _, add_ne_nil _ _ hcompne⟩
  rw [hcore]
  have hcar : (new_large (v.carrier.map fun x => MAX32 - x)).carrier =
      v.carrier.map fun x => MAX32 - x := rfl
  rw [hcar, hvcomp, hone]
  ring

end BigIntSpec

namespace BigIntSpec

/-! ### Adding zero and subtracting a value from itself -/

theorem fillWord_cases (l : List Nat) : fillWord l = 0 ∨ fillWord l = MAX32 := by
  unfold fillWord
  split
  · left; rfl
  · right; rfl

theorem truncate_fill_cons (l : List Nat) (hne : l ≠ []) :
    (truncate ⟨fillWord l :: l⟩).carrier = (truncate ⟨l⟩).carrier := by
  obtain ⟨w, t, rfl⟩ := List.exists_cons_of_ne_nil hne
  have hfm : fillWord (w :: t) &&& SIGN_MASK = w &&& SIGN_MASK := by
    have := fillWord_and_sign_mask (w :: t)
    simpa [List.headI] using this
  have hLHS : (truncate ⟨fillWord (w :: t) :: w :: t⟩).carrier =
      truncGo (fillWord (w :: t)) (w :: t) := by
    rcases truncate_cases (fillWord (w :: t) :: w :: t) with ⟨hid, hcase⟩ | hscan
    · exfalso
      rcases hcase with hlen | ⟨s, u, heq, hno⟩
      · simp at hlen
      · injection heq with h1 h2
        rw [← h1] at hno
        exact hno (fillWord_cases (w :: t))
    · obtain ⟨sign, rest, heq, hs, hlen2, hgo⟩ := hscan
      injection heq with h1 h2
      rw [hgo, ← h1, ← h2]
  rw [hLHS]
  by_cases hw : w = fillWord (w :: t)
  · -- the head is itself the fill word: both sides scan the same tail
    have hgo1 : truncGo (fillWord (w :: t)) (w :: t) =
        truncGo (fillWord (w :: t)) t := by
      simp only [truncGo]
      rw [if_pos hw]
    rw [hgo1]
    have hwfill : w = 0 ∨ w = MAX32 := by
      rw [hw]
      exact fillWord_cases (w :: t)
    rcases truncate_cases (w :: t) with ⟨hid, hcase⟩ | hscan
    · rcases hcase with hlen | ⟨s, u, heq, hno⟩
      · -- t = []
        have ht : t = [] := by
          rw [List.length_cons] at hlen
          have h0 : t.length = 0 := by omega
          exact List.eq_nil_of_length_eq_zero h0
        subst ht
        rw [hid, ← hw]
        rfl
      · exfalso
        injection heq with h1 h2
        rw [← h1] at hno
        exact hno hwfill
    · obtain ⟨sign, rest, heq, hs, hlen2, hgo⟩ := hscan
      injection heq with h1 h2
      rw [hgo, ← h1, ← h2, ← hw]
  · -- the head differs from the fill word: one scan step strips the fill
    have hstep : truncGo (fillWord (w :: t)) (w :: t) = w :: t := by
      simp only [truncGo]
      rw [if_neg hw, if_pos hfm.symm]
    rw [hstep]
    have hw0 : w ≠ 0 := by
      intro hcon
      subst hcon
      exact hw (fillWord_of_sign 0 t (Or.inl rfl)).symm
    have hwM : w ≠ MAX32 := by
      intro hcon
      subst hcon
      exact hw (fillWord_of_sign MAX32 t (Or.inr rfl)).symm
    rcases truncate_cases (w :: t) with ⟨hid, hcase⟩ | hscan
    · rw [hid]
    · obtain ⟨sign, rest, heq, hs, hlen2, hgo⟩ := hscan
      exfalso
      injection heq with h1 h2
      rw [← h1] at hs
      rcases hs with hcon | hcon
      · exact hw0 hcon
      · exact hwM hcon

set_option maxHeartbeats 1000000 in
/-- Adding the one-word zero to any value returns exactly the truncation of
that value: every word-wise sum is the corresponding extended word of the
operand and every carry is `0`. -/
theorem add_new_zero (v : BigInt) (hwv : wf v.carrier) (hnv : v.carrier ≠ []) :
    (add v (new 0)).carrier = (truncate v).carrier := by
  have hn : 1 ≤ v.carrier.length := by
    have := List.length_pos.mpr hnv
    omega
  have hmax : max v.carrier.length (new 0).carrier.length = v.carrier.length := by
    have h1 : (new 0).carrier.length = 1 := rfl
    rw [h1]
    omega
  have hxe : (sign_extension v (v.carrier.length + 1)).carrier =
      fillWord v.carrier :: v.carrier := by
    rw [sign_extension_carrier]
    have h1 : v.carrier.length + 1 - v.carrier.length = 1 := by omega
    rw [h1]
    rfl
  have h0sm : ((new 0).carrier.headI &&& SIGN_MASK) = 0 := by decide
  have hfill0 : fillWord (new 0).carrier = 0 := by
    unfold fillWord
    rw [if_pos h0sm]
  have hye : (sign_extension (new 0) (v.carrier.length + 1)).carrier =
      List.replicate (v.carrier.length + 1) 0 := by
    rw [sign_extension_carrier, hfill0]
    have h1 : (new 0).carrier = [0] := rfl
    rw [h1]
    have h2 : v.carrier.length + 1 - ([0] : List Nat).length = v.carrier.length := by
      simp
    rw [h2]
    rw [show (List.replicate v.carrier.length 0 ++ [0] : List Nat) =
      List.replicate (v.carrier.length + 1) 0 from (List.replicate_succ' _ _).symm]
  have hdef : add v (new 0) = truncate (new_large
      ((if 0 < (addWords
          (sign_extension v (max v.carrier.length (new 0).carrier.length + 1)).carrier.reverse
          (sign_extension (new 0)
            (max v.carrier.length (new 0).carrier.length + 1)).carrier.reverse
          0).2 then
        (addWords
          (sign_extension v (max v.carrier.length (new 0).carrier.length + 1)).carrier.reverse
          (sign_extension (new 0)
            (max v.carrier.length (new 0).carrier.length + 1)).carrier.reverse
          0).1.dropLast
      else
        (addWords
          (sign_extension v (max v.carrier.length (new 0).carrier.length + 1)).carrier.reverse
          (sign_extension (new 0)
            (max v.carrier.length (new 0).carrier.length + 1)).carrier.reverse
          0).1).reverse)) := rfl
  rw [hmax, hye, List.reverse_replicate] at hdef
  have hlenxe : (sign_extension v (v.carrier.length + 1)).carrier.reverse.length =
      v.carrier.length + 1 := by
    rw [List.length_reverse, hxe]
    simp
  have hloop := addWords_zero_right
      (sign_extension v (v.carrier.length + 1)).carrier.reverse
      (wf_reverse _ (wf_sign_extension _ _ hwv))
  rw [hlenxe] at hloop
  rw [hloop] at hdef
  simp only [Nat.lt_irrefl, if_false, List.reverse_reverse] at hdef
  rw [hxe] at hdef
  rw [hdef]
  have hnl : new_large (fillWord v.carrier :: v.carrier) =
      (⟨fillWord v.carrier :: v.carrier⟩ : BigInt) := rfl
  rw [hnl, truncate_fill_cons v.carrier hnv, truncate_mk]

/-- Subtracting a value from itself yields exactly the carrier `[0]`. -/
theorem sub_self_carrier (v : BigInt) (hwv : wf v.carrier)
    (hnv : v.carrier ≠ []) : (sub v v).carrier = [0] := by
  obtain ⟨hval, hwfc, hnec⟩ := two_complement_props v hwv hnv
  have hdef : sub v v = add v (two_complement v) := rfl
  rw [hdef]
  apply add_carrier_of_sum_zero v (two_complement v) hwv hwfc hnv hnec
  rw [hval]
  ring

end BigIntSpec

namespace BigIntSpec

/-! ### Relating the reversed loop to the most-significant-first recursion -/

theorem addWords_append (a b : Nat) (xs : List Nat) : ∀ (ys : List Nat) (c : Nat),
    xs.length = ys.length →
    addWords (xs ++ [a]) (ys ++ [b]) c =
      ((addWords xs ys c).1 ++ [(a + b + (addWords xs ys c).2) % W32],
        if (a + b + (addWords xs ys c).2) % W32 < a ∨
            (a + b + (addWords xs ys c).2) % W32 < b then 1 else 0) := by
  induction xs with
  | nil =>
    intro ys c hlen
    have hys : ys = [] := List.eq_nil_of_length_eq_zero hlen.symm
    subst hys
    rfl
  | cons u us ih =>
    intro ys c hlen
    cases ys with
    | nil => simp at hlen
    | cons v vs =>
      have hlen' : us.length = vs.length := by simpa using hlen
      have h1 : addWords ((u :: us) ++ [a]) ((v :: vs) ++ [b]) c =
          ((u + v + c) % W32 ::
            (addWords (us ++ [a]) (vs ++ [b])
              (if (u + v + c) % W32 < u ∨ (u + v + c) % W32 < v then 1 else 0)).1,
           (addWords (us ++ [a]) (vs ++ [b])
              (if (u + v + c) % W32 < u ∨ (u + v + c) % W32 < v then 1 else 0)).2) :=
        rfl
      have h2 : addWords (u :: us) (v :: vs) c =
          ((u + v + c) % W32 ::
            (addWords us vs
              (if (u + v + c) % W32 < u ∨ (u + v + c) % W32 < v then 1 else 0)).1,
           (addWords us vs
              (if (u + v + c) % W32 < u ∨ (u + v + c) % W32 < v then 1 else 0)).2) :=
        rfl
      rw [h1, h2,
        ih vs (if (u + v + c) % W32 < u ∨ (u + v + c) % W32 < v then 1 else 0) hlen']
      rfl

theorem addWords_reverse_eq_addMsw (x : List Nat) : ∀ (y : List Nat),
    x.length = y.length →
    addWords x.reverse y.reverse 0 = ((addMsw x y).1.reverse, (addMsw x y).2) := by
  induction x with
  | nil =>
    intro y hlen
    have hy : y = [] := List.eq_nil_of_length_eq_zero hlen.symm
    subst hy
    rfl
  | cons u us ih =>
    intro y hlen
    cases y with
    | nil => simp at hlen
    | cons v vs =>
      have hlen' : us.length = vs.length := by simpa using hlen
      rw [List.reverse_cons, List.reverse_cons]
      rw [addWords_append u v us.reverse vs.reverse 0 (by simp [hlen'])]
      rw [ih vs hlen']
      have hr : addMsw (u :: us) (v :: vs) =
          ((u + v + (addMsw us vs).2) % W32 :: (addMsw us vs).1,
            if (u + v + (addMsw us vs).2) % W32 < u ∨
                (u + v + (addMsw us vs).2) % W32 < v then 1 else 0) := rfl
      rw [hr]
      simp [List.reverse_cons]

theorem reverse_dropLast_reverse (l : List Nat) :
    l.reverse.dropLast.reverse = l.tail := by
  cases l with
  | nil => rfl
  | cons h t =>
    rw [List.reverse_cons, List.dropLast_concat, List.reverse_reverse]
    rfl

/-! ### Minimality and idempotence of truncation -/

theorem truncate_minimal (c : List Nat) (hw : wf c) (w : Nat) (rest : List Nat)
    (heq : (truncate ⟨c⟩).carrier = w :: rest) (hrne : rest ≠ []) :
    value rest ≠ value (w :: rest) := by
  have hwres : wf (w :: rest) := by
    rw [← heq]
    exact wf_truncate c hw
  have hwW : w < W32 := hwres w (List.mem_cons_self _ _)
  intro hcon
  have hfill : w = fillWord rest := (value_cons_eq_iff w rest hwW).mp hcon.symm
  rcases truncate_cases c with ⟨hid, hcase⟩ | ⟨sign, rest0, hc, hs, hlen2, hgo⟩
  · rcases hcase with hlen | ⟨s, t, hct, hno⟩
    · rw [hid] at heq
      rw [heq] at hlen
      rw [List.length_cons] at hlen
      have h0 : rest.length = 0 := by omega
      exact hrne (List.eq_nil_of_length_eq_zero h0)
    · rw [hid] at heq
      rw [hct] at heq
      injection heq with h1 h2
      apply hno
      rw [← h1] at hfill
      rw [hfill]
      exact fillWord_cases rest
  · rw [hgo] at heq
    rcases truncGo_shape sign rest0 with hsh | ⟨u, t2, hsh, hune, hum⟩ |
        ⟨u, t2, hsh, hune, hunm⟩
    · rw [hsh] at heq
      injection heq with h1 h2
      exact hrne h2.symm
    · rw [hsh] at heq
      injection heq with h1 h2
      obtain ⟨hu0, huM⟩ := sign_ne_fill_facts sign u hs hune hum
      rw [← h1, ← h2] at hfill
      rcases fillWord_cases t2 with hf | hf
      · rw [hf] at hfill
        exact hu0 hfill
      · rw [hf] at hfill
        exact huM hfill
    · rw [hsh] at heq
      injection heq with h1 h2
      apply hunm
      rw [← h1, ← h2] at hfill
      have hfr : fillWord (u :: t2) = sign := hfill.symm
      unfold fillWord at hfr
      rcases hs with rfl | rfl
      · rw [zero_and_sign_mask]
        by_cases hu : (u :: t2).headI &&& SIGN_MASK = 0
        · simpa [List.headI] using hu
        · rw [if_neg hu] at hfr
          exfalso
          have : MAX32 ≠ 0 := by norm_num [MAX32, W32]
          exact this hfr
      · rw [MAX32_and_sign_mask]
        by_cases hu : (u :: t2).headI &&& SIGN_MASK = 0
        · rw [if_pos hu] at hfr
          exfalso
          have : (0 : Nat) ≠ MAX32 := by norm_num [MAX32, W32]
          exact this hfr
        · rcases and_sign_mask_cases u with h0 | h1
          · exfalso
            apply hu
            simpa [List.headI] using h0
          · exact h1

theorem truncate_idem_list (c : List Nat) :
    (truncate ⟨(truncate ⟨c⟩).carrier⟩).carrier = (truncate ⟨c⟩).carrier := by
  rcases truncate_cases c with ⟨hid, hcase⟩ | ⟨sign, rest, hc, hs, hlen2, hgo⟩
  · rw [hid]
    exact hid
  · rw [hgo]
    exact truncGo_fixed sign rest hs

end BigIntSpec

namespace BigIntSpec

/-! ### Claim theorems -/

/-- C1: the claim that `add` always returns the exact mathematical sum fails
on the code.  At `a = b = [0x00000000, 0xFFFFFFFF, 0xFFFFFFFF]`
(representing `2^64 - 1`), the word pair `(0xFFFFFFFF, 0xFFFFFFFF)` with
carry-in `1` loses its carry, and the result represents `2^64 - 2` instead of
`2^65 - 2`. -/
theorem C1_add_not_exact :
    value (add ⟨[0, MAX32, MAX32]⟩ ⟨[0, MAX32, MAX32]⟩).carrier ≠
      value [0, MAX32, MAX32] + value [0, MAX32, MAX32] := by
  decide

/-- C2: the claim that the loop's outgoing carry is `1` iff the unsigned
addition of the two words plus the incoming carry reaches `2^32` fails on the
code: at the word pair `(0xFFFFFFFF, 0xFFFFFFFF)` with carry-in `1` the code
computes carry `0` although the true sum `2^33 - 1` is at least `2^32`. -/
theorem C2_carry_rule_not_overflow :
    (addWords [MAX32] [MAX32] 1).2 = 0 ∧ W32 ≤ MAX32 + MAX32 + 1 := by
  decide

/-- C3 (counterexample): `add` does not equal truncation of the
specification's assembled word sequence (sign-extend to `max + 1` words,
word-wise modular sums with true overflow carry, no word dropped before
truncation): the two sides differ at
`a = b = [0x00000000, 0xFFFFFFFF, 0xFFFFFFFF]`. -/
theorem C3_add_ne_specAdd :
    (add ⟨[0, MAX32, MAX32]⟩ ⟨[0, MAX32, MAX32]⟩).carrier ≠
      (specAdd ⟨[0, MAX32, MAX32]⟩ ⟨[0, MAX32, MAX32]⟩).carrier := by
  decide

set_option maxHeartbeats 1000000 in
/-- C3 (amended): `add(a, b)` equals truncation applied to the
`max(len(a), len(b)) + 1`-word sequence obtained by sign-extending both
operands, taking the word-wise wraparound sums with the code's carry rule
(carry `1` iff the wrapped sum is below either addend), and dropping the
most significant assembled word when the final carry is `1`. -/
theorem C3_add_eq_assembleAdd (x y : BigInt) :
    (add x y).carrier = (assembleAdd x y).carrier := by
  set L := max x.carrier.length y.carrier.length with hLdef
  set xe := sign_extension x (L + 1) with hxedef
  set ye := sign_extension y (L + 1) with hyedef
  have hxlen : xe.carrier.length = L + 1 :=
    length_sign_extension _ _ (le_trans (le_max_left _ _) (Nat.le_succ _))
  have hylen : ye.carrier.length = L + 1 :=
    length_sign_extension _ _ (le_trans (le_max_right _ _) (Nat.le_succ _))
  have hlen : xe.carrier.length = ye.carrier.length := by rw [hxlen, hylen]
  have hrel := addWords_reverse_eq_addMsw xe.carrier ye.carrier hlen
  have h1 : (add x y).carrier = (truncate (new_large
      ((if 0 < (addWords xe.carrier.reverse ye.carrier.reverse 0).2 then
        (addWords xe.carrier.reverse ye.carrier.reverse 0).1.dropLast
      else (addWords xe.carrier.reverse ye.carrier.reverse 0).1).reverse))).carrier :=
    rfl
  have h2 : (assembleAdd x y).carrier = (truncate (⟨
      if 0 < (addMsw xe.carrier ye.carrier).2 then
        (addMsw xe.carrier ye.carrier).1.tail
      else (addMsw xe.carrier ye.carrier).1⟩ : BigInt)).carrier := rfl
  rw [h1, h2, hrel]
  by_cases hcar : 0 < (addMsw xe.carrier ye.carrier).2
  · have hl : (if 0 < ((addMsw xe.carrier ye.carrier).1.reverse,
        (addMsw xe.carrier ye.carrier).2).2 then
          ((addMsw xe.carrier ye.carrier).1.reverse,
            (addMsw xe.carrier ye.carrier).2).1.dropLast
        else ((addMsw xe.carrier ye.carrier).1.reverse,
          (addMsw xe.carrier ye.carrier).2).1) =
        (addMsw xe.carrier ye.carrier).1.reverse.dropLast := if_pos hcar
    have hr : (if 0 < (addMsw xe.carrier ye.carrier).2 then
        (addMsw xe.carrier ye.carrier).1.tail
      else (addMsw xe.carrier ye.carrier).1) =
        (addMsw xe.carrier ye.carrier).1.tail := if_pos hcar
    rw [hl, hr, reverse_dropLast_reverse]
    rfl
  · have hl : (if 0 < ((addMsw xe.carrier ye.carrier).1.reverse,
        (addMsw xe.carrier ye.carrier).2).2 then
          ((addMsw xe.carrier ye.carrier).1.reverse,
            (addMsw xe.carrier ye.carrier).2).1.dropLast
        else ((addMsw xe.carrier ye.carrier).1.reverse,
          (addMsw xe.carrier ye.carrier).2).1) =
        (addMsw xe.carrier ye.carrier).1.reverse := if_neg hcar
    have hr : (if 0 < (addMsw xe.carrier ye.carrier).2 then
        (addMsw xe.carrier ye.carrier).1.tail
      else (addMsw xe.carrier ye.carrier).1) =
        (addMsw xe.carrier ye.carrier).1 := if_neg hcar
    rw [hl, hr, List.reverse_reverse]
    rfl

theorem C3_add_eq_assembleAdd_witness :
    (add ⟨[5]⟩ ⟨[7]⟩).carrier = (assembleAdd ⟨[5]⟩ ⟨[7]⟩).carrier :=
  C3_add_eq_assembleAdd ⟨[5]⟩ ⟨[7]⟩

/-- C4: for every `BigInt` with a non-empty carrier and every target length
at least the carrier length, `sign_extension` returns exactly `L` words
representing the same two's-complement integer. -/
theorem C4_sign_extension_preserves_value (v : BigInt) (L : Nat)
    (hne : v.carrier ≠ []) (hL : v.carrier.length ≤ L) :
    (sign_extension v L).carrier.length = L ∧
      value (sign_extension v L).carrier = value v.carrier :=
  ⟨length_sign_extension v L hL, value_sign_extension v L⟩

theorem C4_sign_extension_preserves_value_witness :
    (sign_extension ⟨[5]⟩ 3).carrier.length = 3 ∧
      value (sign_extension ⟨[5]⟩ 3).carrier = value [5] :=
  C4_sign_extension_preserves_value ⟨[5]⟩ 3 (by decide) (by decide)

/-- C5: `truncate` preserves the represented two's-complement value, and its
result is minimal: removing the leading word of a multi-word result always
changes the represented value (hence the represented sign at the reduced
width). -/
theorem C5_truncate_value_minimality (v : BigInt) (hw : wf v.carrier)
    (hne : v.carrier ≠ []) :
    value (truncate v).carrier = value v.carrier ∧
      ∀ w rest, (truncate v).carrier = w :: rest → rest ≠ [] →
        value rest ≠ value (w :: rest) := by
  constructor
  · rw [← truncate_mk v]
    exact value_truncate v.carrier
  · intro w rest heq hrne
    apply truncate_minimal v.carrier hw w rest _ hrne
    rw [truncate_mk v]
    exact heq

theorem C5_truncate_value_minimality_witness :
    value (truncate ⟨[0, 2147483648]⟩).carrier = value [0, 2147483648] ∧
      value [2147483648] ≠ value [0, 2147483648] := by
  have h := C5_truncate_value_minimality ⟨[0, 2147483648]⟩ (by decide) (by decide)
  exact ⟨h.1, h.2 0 [2147483648] (by decide) (by decide)⟩

/-- C6: truncation is structurally idempotent: truncating an already
truncated value returns the identical carrier. -/
theorem C6_truncate_idempotent (v : BigInt) :
    (truncate (truncate v)).carrier = (truncate v).carrier := by
  have h1 := truncate_mk (truncate v)
  have h2 := truncate_mk v
  rw [← h1, ← h2]
  exact truncate_idem_list v.carrier

theorem C6_truncate_idempotent_witness :
    (truncate (truncate ⟨[0, 0, 7]⟩)).carrier = (truncate ⟨[0, 0, 7]⟩).carrier :=
  C6_truncate_idempotent ⟨[0, 0, 7]⟩

/-- C7: associativity by represented value fails on the code.  With
`a = b = [0, 0xFFFFFFFF, 0xFFFFFFFF]` (each `2^64 - 1`) and `c = [0, 1]`,
`(a + b) + c` represents `2^64 - 1` while `a + (b + c)` represents
`2^65 - 1`, because the dropped carry makes `a + b` inexact. -/
theorem C7_add_not_associative :
    value (add (add ⟨[0, MAX32, MAX32]⟩ ⟨[0, MAX32, MAX32]⟩) ⟨[0, 1]⟩).carrier ≠
      value (add ⟨[0, MAX32, MAX32]⟩ (add ⟨[0, MAX32, MAX32]⟩ ⟨[0, 1]⟩)).carrier := by
  decide

/-- C8: adding the one-word zero returns exactly the truncation of the
operand, and subtracting a value from itself represents `0` (indeed the
carrier is exactly `[0]`). -/
theorem C8_add_zero_sub_self (v : BigInt) (hw : wf v.carrier)
    (hne : v.carrier ≠ []) :
    (add v (new 0)).carrier = (truncate v).carrier ∧
      value (sub v v).carrier = 0 := by
  refine ⟨add_new_zero v hw hne, ?_⟩
  rw [sub_self_carrier v hw hne]
  decide

theorem C8_add_zero_sub_self_witness :
    (add ⟨[5]⟩ (new 0)).carrier = (truncate ⟨[5]⟩).carrier ∧
      value (sub ⟨[5]⟩ ⟨[5]⟩).carrier = 0 :=
  C8_add_zero_sub_self ⟨[5]⟩ (by decide) (by decide)

/-- C9: the only failure modes are fatal precondition violations:
constructing from an empty word sequence halts (modelled as `none`),
sign-extending to a length shorter than the carrier halts (modelled as
`none`), and `new` always succeeds, returning the one-word carrier. -/
theorem C9_fatal_preconditions (v : BigInt) (L : Nat) (w : Nat)
    (hL : L < v.carrier.length) :
    new_largeChecked [] = none ∧ sign_extensionChecked v L = none ∧
      (new w).carrier = [w] := by
  refine ⟨rfl, ?_, rfl⟩
  unfold sign_extensionChecked
  rw [if_pos hL]

theorem C9_fatal_preconditions_witness :
    new_largeChecked [] = none ∧ sign_extensionChecked ⟨[1, 2]⟩ 1 = none ∧
      (new 42).carrier = [42] :=
  C9_fatal_preconditions ⟨[1, 2]⟩ 1 42 (by decide)

/-- C10: every operation preserves the non-empty-carrier invariant: `new`,
`new_large` on a non-empty sequence, `sign_extension`, `truncate`,
`two_complement`, `add` and `sub` on non-empty inputs all return non-empty
carriers. -/
theorem C10_nonempty_invariant (n L : Nat) (c : List Nat) (v x y : BigInt)
    (hc : c ≠ []) (hv : v.carrier ≠ []) (hL : v.carrier.length ≤ L)
    (hx : x.carrier ≠ []) (hy : y.carrier ≠ []) :
    (new n).carrier ≠ [] ∧ (new_large c).carrier ≠ [] ∧
      (sign_extension v L).carrier ≠ [] ∧ (truncate v).carrier ≠ [] ∧
      (two_complement v).carrier ≠ [] ∧ (add x y).carrier ≠ [] ∧
      (sub x y).carrier ≠ [] := by
  refine ⟨?_, ?_, ?_, ?_, ?_, ?_, ?_⟩
  · simp [new]
  · exact hc
  · rw [sign_extension_carrier]
    simp [hv]
  · rw [← truncate_mk v]
    exact truncate_ne_nil v.carrier hv
  · have hdef : two_complement v =
        add (new_large (v.carrier.map fun u => MAX32 - u)) (new 1) := rfl
    rw [hdef]
    apply add_ne_nil
    show v.carrier.map (fun u => MAX32 - u) ≠ []
    simp [hv]
  · exact add_ne_nil x y hx
  · show (add x (two_complement y)).carrier ≠ []
    exact add_ne_nil x (two_complement y) hx

theorem C10_nonempty_invariant_witness :
    (new 3).carrier ≠ [] ∧ (new_large [4]).carrier ≠ [] ∧
      (sign_extension ⟨[5]⟩ 2).carrier ≠ [] ∧ (truncate ⟨[5]⟩).carrier ≠ [] ∧
      (two_complement ⟨[5]⟩).carrier ≠ [] ∧
      (add ⟨[5]⟩ ⟨[6]⟩).carrier ≠ [] ∧ (sub ⟨[5]⟩ ⟨[6]⟩).carrier ≠ [] :=
  C10_nonempty_invariant 3 2 [4] ⟨[5]⟩ ⟨[5]⟩ ⟨[6]⟩ (by decide) (by decide)
    (by decide) (by decide) (by decide)

end BigIntSpec
